import Mathlib

/-!
# Cache timing histogram utility (`utilities/utility_cache_hist.cpp`)

A shallow embedding of the `Evaluator` of `utility_cache_hist.cpp`: the raw and
channel-access operations, the bulk `util::reload` / `util::flush` helpers, the
constructor, `process` and `measure`.

The program acts on hardware (cache lines, time stamp counters, the scheduler)
and on a logger.  The embedding makes that explicit: every primitive action is
an `Event` appended to the `trace` of a `Machine`, which also carries the set of
resident cache lines and a clock.  The host's behaviour (what an action costs,
whether a prefetch hint loads the line) is a parameter, `Host`.
-/

namespace CacheHist

/-! ## Data model -/

/-- The values of `void_ptr_t` the program forms: `&var`, `&arr[i]`, and the
placeholder for a table entry that has not been assigned yet. -/
inductive Address where
  | var
  | arr (i : Nat)
  | unset
  deriving DecidableEq, Repr

/-- The timing strategies named in the source (`timeit<...>` template arguments and
`default_timing_facility`). -/
inductive Strategy where
  | MemoryFencedSerialisingFlushTSC
  | MemoryFencedPrefetchTSC
  | MemoryFencedTSC
  | default_timing_facility
  | SteadyClockStrong
  deriving DecidableEq, Repr

/-- The scheduling policies of `exot::utilities::SchedulingPolicy`. -/
inductive SchedulingPolicy where
  | Other | Fifo | RoundRobin | Deadline | Batch | Idle
  deriving DecidableEq, Repr

/-- Modelled from the spec: the state of the `SynchronizationBarrier`
(`exot::framework::State`, not part of the sources), a tri-state cell. -/
inductive GlobalState where
  | NotStarted | Started | Stopped
  deriving DecidableEq, Repr

/-- Modelled from the spec: `State::is_started()` of the barrier, true exactly in
the state `Started`. -/
def GlobalState.is_started : GlobalState → Bool
  | .Started => true
  | _ => false

/-- Primitive actions of the program, in the order they are performed. -/
inductive Event where
  | flush (a : Address)
  | prefetch (a : Address)
  | access_read (a : Address)
  | yield
  | tic (s : Strategy)
  | toc (s : Strategy)
  | set_affinity (cpu : Nat)
  | set_scheduling (policy : SchedulingPolicy) (priority : Nat)
  | poll (observed : GlobalState)
  | sleep_for (ms : Nat)
  | app_info (msg : String)
  | debug_info (msg : String)
  deriving DecidableEq, Repr

/-- The resident set of the cache. -/
abbrev Cache := Address → Bool

/-- What the program cannot decide: the build target, the elapsed time of each
action and whether a prefetch hint brings the line in. -/
structure Host where
  x86_64 : Bool
  cost : Event → Cache → Nat
  prefetchLoads : Cache → Address → Bool
  thread_info : String

/-- A host for examples: an x86-64 build on which a memory action on a resident line
takes 40 time units and on a line that is not resident 200, every other action takes
one unit, and prefetch hints are honoured. -/
def Host.simulated : Host :=
  { x86_64 := true
    cost := fun e c =>
      match e with
      | .flush a => if c a then 40 else 200
      | .prefetch a => if c a then 40 else 200
      | .access_read a => if c a then 40 else 200
      | _ => 1
    prefetchLoads := fun _ _ => true
    thread_info := "main" }

/-- Cache, clock and the actions performed so far. -/
structure Machine where
  cache : Cache
  clock : Nat
  trace : List Event

/-- A machine that has not performed any action yet. -/
def Machine.init (cache : Cache) (clock : Nat) : Machine :=
  { cache := cache, clock := clock, trace := [] }

/-- Modelled from the spec: the effect of the memory primitives of
`exot/primitives/cache.h` on the resident set.  `flush` evicts the line,
`access_read` brings it in, `prefetch` is a hint that may or may not bring it in;
no other action changes the resident set. -/
def Event.effect (h : Host) (e : Event) (c : Cache) : Cache :=
  match e with
  | .flush a => fun x => if x = a then false else c x
  | .access_read a => fun x => if x = a then true else c x
  | .prefetch a => fun x => if x = a then (c a || h.prefetchLoads c a) else c x
  | _ => c

/-- Perform one primitive action. -/
def Machine.emit (h : Host) (e : Event) (m : Machine) : Machine :=
  { cache := e.effect h m.cache
    clock := m.clock + h.cost e m.cache
    trace := m.trace ++ [e] }

/-- The `return_t` of the source, `std::uint64_t`. -/
def return_t_mod : Nat := 2 ^ 64

/-- Modelled from the spec: `exot::utilities::timeit<Strategy>(f, args...)` and
`exot::utilities::default_timing_facility(f, args...)` (library code, not part of
the sources).  The call is bracketed by the strategy's fences, runs `f` exactly once,
and returns the time elapsed between the two clock readings, which lie inside the
fences, as a `return_t`. -/
def timeit (h : Host) (s : Strategy) (f : Machine → Machine) (m : Machine) :
    Nat × Machine :=
  let m1 := m.emit h (.tic s)
  let m2 := f m1
  ((m2.clock - m1.clock) % return_t_mod, m2.emit h (.toc s))

/-- Modelled from the spec: `exot::utilities::const_for<Begin, End>(f)`, which calls `f(I)`
for `I = Begin, ..., End - 1`. -/
def const_for (b e : Nat) (f : Nat → Machine → Machine) (m : Machine) : Machine :=
  (List.range' b (e - b)).foldl (fun m i => f i m) m

/-! ## `namespace raw` -/

/-- The function `raw::flush`: a timed flush. -/
def raw.flush (h : Host) (addr : Address) (m : Machine) : Nat × Machine :=
  if h.x86_64 then
    timeit h .MemoryFencedSerialisingFlushTSC (Machine.emit h (.flush addr)) m
  else
    timeit h .default_timing_facility (Machine.emit h (.flush addr)) m

/-- The function `raw::prefetch`: a timed prefetch. -/
def raw.prefetch (h : Host) (addr : Address) (m : Machine) : Nat × Machine :=
  if h.x86_64 then
    timeit h .MemoryFencedPrefetchTSC (Machine.emit h (.prefetch addr)) m
  else
    timeit h .default_timing_facility (Machine.emit h (.prefetch addr)) m

/-- The function `raw::reload`: a timed read. -/
def raw.reload (h : Host) (addr : Address) (m : Machine) : Nat × Machine :=
  if h.x86_64 then
    timeit h .MemoryFencedTSC (Machine.emit h (.access_read addr)) m
  else
    timeit h .default_timing_facility (Machine.emit h (.access_read addr)) m

/-! ## `namespace channel_access` -/

/-- The function `channel_access::flush_flush`: a timed flush. -/
def channel_access.flush_flush (h : Host) (addr : Address) (m : Machine) : Nat × Machine :=
  if h.x86_64 then
    timeit h .MemoryFencedSerialisingFlushTSC (Machine.emit h (.flush addr)) m
  else
    timeit h .default_timing_facility (Machine.emit h (.flush addr)) m

/-- The function `channel_access::flush_prefetch`: a timed prefetch, then a flush. -/
def channel_access.flush_prefetch (h : Host) (addr : Address) (m : Machine) : Nat × Machine :=
  if h.x86_64 then
    let r := timeit h .MemoryFencedPrefetchTSC (Machine.emit h (.prefetch addr)) m
    (r.1, r.2.emit h (.flush addr))
  else
    let r := timeit h .default_timing_facility (Machine.emit h (.prefetch addr)) m
    (r.1, r.2.emit h (.flush addr))

/-- The function `channel_access::flush_reload`: a timed read, then a flush. -/
def channel_access.flush_reload (h : Host) (addr : Address) (m : Machine) : Nat × Machine :=
  if h.x86_64 then
    let r := timeit h .MemoryFencedTSC (Machine.emit h (.access_read addr)) m
    (r.1, r.2.emit h (.flush addr))
  else
    let r := timeit h .default_timing_facility (Machine.emit h (.access_read addr)) m
    (r.1, r.2.emit h (.flush addr))

/-! ## `namespace util` -/

/-- The function `util::reload<void_ptr_t, Forceful>`: the branch for a single address. -/
def util.reload (h : Host) (Forceful : Bool) (value : Address) (m : Machine) : Machine :=
  let m := const_for 0 4 (fun _ m => m.emit h (.access_read value)) m
  if Forceful then
    let m := m.emit h .yield
    const_for 0 4 (fun _ m => m.emit h (.access_read value)) m
  else m

/-- The function `util::reload<T, Forceful>` for an iterable `T`: `std::for_each` over its
elements. -/
def util.reload_each (h : Host) (Forceful : Bool) (value : List Address) (m : Machine) :
    Machine :=
  value.foldl (fun m a => util.reload h Forceful a m) m

/-- The function `util::flush<void_ptr_t, Forceful>`: the branch for a single address. -/
def util.flush (h : Host) (Forceful : Bool) (value : Address) (m : Machine) : Machine :=
  if Forceful then
    let m := m.emit h (.flush value)
    m.emit h .yield
  else
    const_for 0 3 (fun _ m => (m.emit h (.flush value)).emit h .yield) m

/-- The function `util::flush<T, Forceful>` for an iterable `T`: `std::for_each` over its
elements. -/
def util.flush_each (h : Host) (Forceful : Bool) (value : List Address) (m : Machine) :
    Machine :=
  value.foldl (fun m a => util.flush h Forceful a m) m

/-! ## Formatting -/

/-- Replacement of the `{}` fields of an `fmt` format string by the arguments, in
order. -/
def fmt.subst : List Char → List String → List Char
  | [], _ => []
  | '{' :: '}' :: rest, a :: args => a.data ++ fmt.subst rest args
  | c :: rest, args => c :: fmt.subst rest args

/-- The message `logger->info(format, args...)` writes. -/
def fmt.format (format : String) (args : List String) : String :=
  String.mk (fmt.subst format.data args)

/-! ## `struct Evaluator` -/

/-- The structure `Evaluator::settings`, with the defaults of the source.  `count` and `sets`
are `unsigned`. -/
structure settings where
  self_policy : SchedulingPolicy := .Other
  self_priority : Nat := 0
  cpu_to_pin : Option Nat := none
  count : Nat := 1000
  sets : Nat := 16
  measure_with_perf : Bool := true
  start_immediately : Bool := true

/-- What a constructor can throw. -/
inductive Exception where
  | logic_error (what : String)
  deriving DecidableEq, Repr

/-- The data members of `Evaluator`: the singleton `var` and its address `ptr`, the
backing store `arr`, the address table `ptr_arr`, and the settings. -/
structure Evaluator where
  var : Nat
  ptr : Address
  arr : List Nat
  ptr_arr : List Address
  conf_ : settings

/-- A counted loop `for (auto i = 0; i < n; ++i) body(i)`.  The counters of the
source are `int`; they agree with the natural numbers used here as long as
`n ≤ 2 ^ 31 - 1`. -/
def forLoop {σ : Type} (n : Nat) (body : Nat → σ → σ) (s : σ) : σ :=
  (List.range n).foldl (fun s i => body i s) s

/-- A counted loop `for (auto i = first; i <= last; ++i) body(i)`. -/
def forFromTo {σ : Type} (first last : Nat) (body : Nat → σ → σ) (s : σ) : σ :=
  (List.range' first (last + 1 - first)).foldl (fun s i => body i s) s

/-- The algorithm `std::iota(first, last, value)` on cells of type `std::uint8_t`. -/
def iota : List Nat → Nat → List Nat
  | [], _ => []
  | _ :: xs, value => (value % 256) :: iota xs (value + 1)

/-- The state the data members have once the constructor body has run: the member
initialisers, then `std::iota` over `arr`, then the loop that stores `&arr[n]` in
`ptr_arr[n]`. -/
def Evaluator.build (conf : settings) : Evaluator :=
  let arr := iota (List.replicate 64 0) 0
  let ptr_arr := forLoop arr.length (fun n p => p.set n (Address.arr n))
    (List.replicate 64 Address.unset)
  { var := 1, ptr := Address.var, arr := arr, ptr_arr := ptr_arr, conf_ := conf }

/-- The constructor `Evaluator::Evaluator(settings&)`: the guard on `sets`, then the
filling of the tables. -/
def Evaluator.new (conf : settings) : Except Exception Evaluator :=
  if conf.sets > 64 then
    .error (.logic_error "conf->sets must be less than or equal 64")
  else
    .ok (Evaluator.build conf)

/-- The function `Evaluator::measure_duration`. -/
def Evaluator.measure_duration (h : Host) (ev : Evaluator) (callable : Machine → Machine)
    (m : Machine) : Nat × Machine :=
  if h.x86_64 then
    timeit h .MemoryFencedTSC callable m
  else if ev.conf_.measure_with_perf then
    timeit h .default_timing_facility callable m
  else
    timeit h .SteadyClockStrong callable m

/-- The four function-local `static` vectors of `measure`. -/
structure Holders where
  raw_hit_holder : List Nat
  raw_miss_holder : List Nat
  op_hit_holder : List Nat
  op_miss_holder : List Nat

/-- The initialisers of the `static` holders: `std::vector<return_t>(count)`. -/
def Holders.fresh (count : Nat) : Holders :=
  { raw_hit_holder := List.replicate count 0
    raw_miss_holder := List.replicate count 0
    op_hit_holder := List.replicate count 0
    op_miss_holder := List.replicate count 0 }

/-- A measuring loop of `measure`:
`for (auto i = 0; i < count; ++i) { prepare(); holder[i] = timed(); }`. -/
def Evaluator.fill (count : Nat) (prepare : Machine → Machine)
    (timed : Machine → Nat × Machine) (s : Machine × List Nat) : Machine × List Nat :=
  forLoop count (fun i s =>
    let r := timed (prepare s.1)
    (r.2, s.2.set i r.1)) s

/-- A dumping loop of `measure`:
`for (auto i = 0; i < count; ++i) application_log_->info(format, ..., i, holder[i]);`. -/
def Evaluator.dump (h : Host) (count : Nat) (line : String → String → String)
    (holder : List Nat) (m : Machine) : Machine :=
  forLoop count (fun i m =>
    m.emit h (.app_info (line (toString i) (toString (holder.getD i 0))))) m

/-- The callable timed in the sweeps:
`for (auto j = 0; j < current_sets; ++j) { auto dummy = op(ptr_arr[j]); }`. -/
def Evaluator.apply_op (ev : Evaluator) (op : Address → Machine → Nat × Machine)
    (current_sets : Nat) (m : Machine) : Machine :=
  forLoop current_sets (fun j m => (op (ev.ptr_arr.getD j Address.unset) m).2) m

/-- The function `Evaluator::measure<Raw, Operation, Forceful>(raw, op, method)`.  The second
component of the state is the storage of the `static` holders, `none` before the
first call. -/
def Evaluator.measure (h : Host) (ev : Evaluator)
    (raw op : Address → Machine → Nat × Machine) (method : String) (Forceful : Bool)
    (s : Machine × Option Holders) : Machine × Option Holders :=
  let count := ev.conf_.count
  let st := s.2.getD (Holders.fresh count)
  -- raw hit
  let r := Evaluator.fill count (util.reload h Forceful ev.ptr) (raw ev.ptr)
    (s.1, st.raw_hit_holder)
  let raw_hit_holder := r.2
  -- dump raw hit
  let m := Evaluator.dump h count
    (fun i d => fmt.format "0,\x7b\x7d,raw,hit,0,\x7b\x7d,\x7b\x7d" [method, i, d])
    raw_hit_holder r.1
  let r := forFromTo 1 ev.conf_.sets (fun current_sets s =>
    -- op hit
    let r := Evaluator.fill count (util.reload_each h Forceful ev.ptr_arr)
      (ev.measure_duration h (ev.apply_op op current_sets)) s
    -- dump op hit
    (Evaluator.dump h count
      (fun i d => fmt.format "0,\x7b\x7d,access,hit,\x7b\x7d,\x7b\x7d,\x7b\x7d"
        [method, toString current_sets, i, d]) r.2 r.1, r.2)) (m, st.op_hit_holder)
  let op_hit_holder := r.2
  let m := util.flush h true ev.ptr r.1
  let m := util.flush_each h true ev.ptr_arr m
  -- raw miss
  let r := Evaluator.fill count (util.flush h Forceful ev.ptr) (raw ev.ptr)
    (m, st.raw_miss_holder)
  let raw_miss_holder := r.2
  -- dump raw miss
  let m := Evaluator.dump h count
    (fun i d => fmt.format "0,\x7b\x7d,raw,miss,0,\x7b\x7d,\x7b\x7d" [method, i, d])
    raw_miss_holder r.1
  let r := forFromTo 1 ev.conf_.sets (fun current_sets s =>
    -- op miss
    let r := Evaluator.fill count (util.flush_each h Forceful ev.ptr_arr)
      (ev.measure_duration h (ev.apply_op op current_sets)) s
    -- dump op miss
    (Evaluator.dump h count
      (fun i d => fmt.format "0,\x7b\x7d,access,miss,\x7b\x7d,\x7b\x7d,\x7b\x7d"
        [method, toString current_sets, i, d]) r.2 r.1, r.2)) (m, st.op_miss_holder)
  let op_miss_holder := r.2
  (r.1, some { raw_hit_holder := raw_hit_holder, raw_miss_holder := raw_miss_holder
               op_hit_holder := op_hit_holder, op_miss_holder := op_miss_holder })

/-- How far a run got. -/
inductive Status where
  | finished
  | waiting
  | threw (e : Exception)
  deriving DecidableEq, Repr

/-- A run: the machine with everything done so far, and how the run ended. -/
structure Outcome where
  machine : Machine
  status : Status

/-- The wait loop of `process`:
`while (!global_state_->is_started() && !conf_.start_immediately) sleep_for(1ms);`.
The list holds the states the successive calls of `is_started` observe; when it is
used up without the loop having been left, the run is still waiting (`false`). -/
def Evaluator.wait (h : Host) (start_immediately : Bool) :
    List GlobalState → Machine → Machine × Bool
  | [], m => (m, false)
  | g :: polls, m =>
    let m := m.emit h (.poll g)
    if !g.is_started && !start_immediately then
      Evaluator.wait h start_immediately polls (m.emit h (.sleep_for 1))
    else (m, true)

/-- The header line of the measurement log. -/
def header : String := "placeholder,method,category,class,sets,index,duration"

/-- The function `Evaluator::process`. -/
def Evaluator.process (h : Host) (ev : Evaluator) (polls : List GlobalState)
    (m : Machine) : Outcome :=
  let m := match ev.conf_.cpu_to_pin with
    | some cpu => m.emit h (.set_affinity cpu)
    | none => m
  let m := m.emit h (.set_scheduling ev.conf_.self_policy ev.conf_.self_priority)
  let m := m.emit h
    (.debug_info (fmt.format "[Evaluator] running on \x7b\x7d" [h.thread_info]))
  let m := if h.x86_64 then m else (timeit h .default_timing_facility id m).2
  let w := Evaluator.wait h ev.conf_.start_immediately polls m
  if w.2 then
    let m := w.1.emit h (.app_info header)
    let s := ev.measure h (raw.flush h) (channel_access.flush_flush h) "flush_flush" false
      (m, none)
    let s := ev.measure h (raw.prefetch h) (channel_access.flush_prefetch h) "flush_prefetch"
      false s
    let s := ev.measure h (raw.reload h) (channel_access.flush_reload h) "flush_reload"
      false s
    { machine := s.1.emit h (.debug_info "[Evaluator] finished measurements")
      status := .finished }
  else
    { machine := w.1, status := .waiting }

/-- Modelled from the spec: `main`, that is
`exot::utilities::cli_wrapper<Evaluator>` (library code, not part of the
sources): the component is constructed from its settings and then `process` runs; an
exception of the constructor ends the program before `process`. -/
def main (h : Host) (conf : settings) (polls : List GlobalState) (m : Machine) : Outcome :=
  match Evaluator.new conf with
  | .error e => { machine := m, status := .threw e }
  | .ok ev => ev.process h polls m

/-- The line an action writes to the application log, if it writes one. -/
def Event.appLine : Event → Option String
  | .app_info msg => some msg
  | _ => none

/-- The lines written to the application log, in order. -/
def appLog (trace : List Event) : List String :=
  trace.filterMap Event.appLine

/-! ## Reading the measurement log -/

/-- The `category` column. -/
inductive Category where
  | raw | access
  deriving DecidableEq, Repr

/-- The `class` column. -/
inductive HitMiss where
  | hit | miss
  deriving DecidableEq, Repr

/-- The key of a record: method, category, class, footprint size, trial index. -/
structure Key where
  method : String
  category : Category
  cls : HitMiss
  size : Nat
  index : Nat
  deriving DecidableEq, Repr

/-- A record line read back: the seven columns of the header. -/
structure Record where
  placeholder : Nat
  key : Key
  duration : Nat
  deriving DecidableEq, Repr

/-- The comma-separated fields of a line. -/
def splitComma : List Char → List (List Char)
  | [] => [[]]
  | c :: cs =>
    if c = ',' then [] :: splitComma cs
    else
      match splitComma cs with
      | [] => [[c]]
      | f :: fs => (c :: f) :: fs

/-- The value of a decimal digit. -/
def digitValue (c : Char) : Option Nat :=
  if c.isDigit then some (c.toNat - 48) else none

/-- One step of reading a decimal numeral from the left. -/
def parseStep (acc : Option Nat) (c : Char) : Option Nat :=
  match acc, digitValue c with
  | some a, some d => some (a * 10 + d)
  | _, _ => none

/-- The number a non-empty string of decimal digits denotes. -/
def parseNat : List Char → Option Nat
  | [] => none
  | c :: cs => (c :: cs).foldl parseStep (some 0)

/-- The category a field names. -/
def parseCategory (f : List Char) : Option Category :=
  if f = "raw".data then some .raw
  else if f = "access".data then some .access
  else none

/-- The class a field names. -/
def parseClass (f : List Char) : Option HitMiss :=
  if f = "hit".data then some .hit
  else if f = "miss".data then some .miss
  else none

/-- A line as a record: exactly seven comma-separated fields, in the order of the
header `placeholder,method,category,class,sets,index,duration`. -/
def parseRecord (line : String) : Option Record :=
  match splitComma line.data with
  | [p, m, c, k, s, i, d] =>
    match parseNat p, parseCategory c, parseClass k, parseNat s, parseNat i, parseNat d with
    | some p, some c, some k, some s, some i, some d =>
      some { placeholder := p
             key := { method := String.mk m, category := c, cls := k, size := s, index := i }
             duration := d }
    | _, _, _, _, _, _ => none
  | _ => none

/-- The placeholder and the key of a record line, when it is one. -/
def parseKey (line : String) : Option (Nat × Key) :=
  (parseRecord line).map (fun r => (r.placeholder, r.key))

/-- The key of a record line, when it is one. -/
def recordKey (line : String) : Option Key :=
  (parseRecord line).map Record.key

/-- What is read off a line of the log: whether it is the header, and its placeholder
and key when it is a record. -/
def lineView (line : String) : Bool × Option (Nat × Key) :=
  (decide (line = header), parseKey line)

/-- Whether a line is a record line. -/
def isRecord (line : String) : Bool :=
  (parseRecord line).isSome

/-- Whether a line is a record of the given category, class and footprint size. -/
def isRecordOf (c : Category) (k : HitMiss) (size : Nat) (line : String) : Bool :=
  match recordKey line with
  | some key => decide (key.category = c ∧ key.cls = k ∧ key.size = size)
  | none => false

/-- What is read off the line an action writes to the application log. -/
def Event.view (e : Event) : Option (Bool × Option (Nat × Key)) :=
  e.appLine.map lineView

/-- The view of the record line with a key. -/
def Key.view (k : Key) : Bool × Option (Nat × Key) :=
  (false, some (0, k))

/-- The `count` keys with one method, category, class and size, by ascending index. -/
def keyBlock (method : String) (c : Category) (k : HitMiss) (size count : Nat) : List Key :=
  (List.range count).map
    (fun i => { method := method, category := c, cls := k, size := size, index := i })

/-- The reference order of the keys of one method: raw hits, access hits by
ascending size, raw misses, access misses by ascending size. -/
def referenceMethod (method : String) (count sets : Nat) : List Key :=
  keyBlock method .raw .hit 0 count
    ++ (List.range' 1 sets).flatMap (fun s => keyBlock method .access .hit s count)
    ++ keyBlock method .raw .miss 0 count
    ++ (List.range' 1 sets).flatMap (fun s => keyBlock method .access .miss s count)

/-- The methods, in the order `process` measures them. -/
def methods : List String := ["flush_flush", "flush_prefetch", "flush_reload"]

/-- The reference order of the keys of a whole run. -/
def reference (count sets : Nat) : List Key :=
  methods.flatMap (fun method => referenceMethod method count sets)

/-! ## Reference traces

The actions of every operation except the text of the log lines are fixed by the
settings.  The lists below spell them out; the theorems relate them to the
operations. -/

/-- Whatever the state `f` starts in, `g` observes of what `f` does what it observes
of the actions `E`; `tr` reads the trace off the state. -/
def Emits {σ β : Type} (tr : σ → List Event) (g : Event → Option β) (f : σ → σ)
    (E : List Event) : Prop :=
  ∀ s, (tr (f s)).filterMap g = (tr s).filterMap g ++ E.filterMap g

/-- The strategy a build uses where the x86-64 build uses `s`. -/
def Host.strategy (h : Host) (s : Strategy) : Strategy :=
  if h.x86_64 then s else .default_timing_facility

/-- The actions of timing `inner` with strategy `s`. -/
def timedEvents (s : Strategy) (inner : List Event) : List Event :=
  .tic s :: inner ++ [.toc s]

/-- The actions of `util::reload` on one address. -/
def reloadEvents (Forceful : Bool) (a : Address) : List Event :=
  List.replicate 4 (.access_read a)
    ++ (if Forceful then .yield :: List.replicate 4 (.access_read a) else [])

/-- The actions of `util::flush` on one address. -/
def flushEvents (Forceful : Bool) (a : Address) : List Event :=
  if Forceful then [.flush a, .yield]
  else [.flush a, .yield, .flush a, .yield, .flush a, .yield]

/-- The three measured methods. -/
inductive Method where
  | flush_flush | flush_prefetch | flush_reload
  deriving DecidableEq, Repr

/-- The label `process` passes to `measure` for a method. -/
def Method.label : Method → String
  | .flush_flush => "flush_flush"
  | .flush_prefetch => "flush_prefetch"
  | .flush_reload => "flush_reload"

/-- The raw operation `process` passes to `measure` for a method. -/
def Method.raw (h : Host) : Method → Address → Machine → Nat × Machine
  | .flush_flush => CacheHist.raw.flush h
  | .flush_prefetch => CacheHist.raw.prefetch h
  | .flush_reload => CacheHist.raw.reload h

/-- The channel operation `process` passes to `measure` for a method. -/
def Method.op (h : Host) : Method → Address → Machine → Nat × Machine
  | .flush_flush => channel_access.flush_flush h
  | .flush_prefetch => channel_access.flush_prefetch h
  | .flush_reload => channel_access.flush_reload h

/-- The strategy the x86-64 build times a method's first action with. -/
def Method.tsc : Method → Strategy
  | .flush_flush => .MemoryFencedSerialisingFlushTSC
  | .flush_prefetch => .MemoryFencedPrefetchTSC
  | .flush_reload => .MemoryFencedTSC

/-- The memory action a method times. -/
def Method.first : Method → Address → Event
  | .flush_flush => .flush
  | .flush_prefetch => .prefetch
  | .flush_reload => .access_read

/-- The cleanup a method's channel operation performs after the timed action. -/
def Method.cleanup : Method → Address → List Event
  | .flush_flush => fun _ => []
  | .flush_prefetch => fun a => [.flush a]
  | .flush_reload => fun a => [.flush a]

/-- The actions of a method's raw operation. -/
def Method.rawEvents (h : Host) (k : Method) (a : Address) : List Event :=
  timedEvents (h.strategy k.tsc) [k.first a]

/-- The actions of a method's channel operation. -/
def Method.opEvents (h : Host) (k : Method) (a : Address) : List Event :=
  timedEvents (h.strategy k.tsc) [k.first a] ++ k.cleanup a

/-- The strategy of `measure_duration`. -/
def Evaluator.durationStrategy (h : Host) (ev : Evaluator) : Strategy :=
  if h.x86_64 then .MemoryFencedTSC
  else if ev.conf_.measure_with_perf then .default_timing_facility
  else .SteadyClockStrong

/-- The observation `g` of a log line does not depend on the duration it reports. -/
def Blind {β : Type} (g : Event → Option β) (line : String → String → String) : Prop :=
  ∀ i d : Nat, g (.app_info (line (toString i) (toString d)))
    = g (.app_info (line (toString i) (toString 0)))

/-- The log lines of a dumping loop, with the durations left out (written `0`). -/
def lineEvents (count : Nat) (line : String → String → String) : List Event :=
  (List.range count).map (fun i => .app_info (line (toString i) (toString 0)))

/-- The actions of the callable timed in a sweep at size `s`, for a channel operation
whose actions on an address are `O`, inside the window of `measure_duration`. -/
def Evaluator.trialEvents (h : Host) (ev : Evaluator) (O : Address → List Event)
    (s : Nat) : List Event :=
  timedEvents (ev.durationStrategy h)
    ((List.range s).flatMap (fun j => O (ev.ptr_arr.getD j Address.unset)))

/-- The actions of one call of `measure`, for a raw operation whose actions on an
address are `R` and a channel operation whose actions are `O`. -/
def Evaluator.measureEvents (h : Host) (ev : Evaluator) (R O : Address → List Event)
    (method : String) (Forceful : Bool) : List Event :=
  (List.range ev.conf_.count).flatMap (fun _ => reloadEvents Forceful ev.ptr ++ R ev.ptr)
  ++ lineEvents ev.conf_.count
      (fun i d => fmt.format "0,\x7b\x7d,raw,hit,0,\x7b\x7d,\x7b\x7d" [method, i, d])
  ++ (List.range' 1 (ev.conf_.sets + 1 - 1)).flatMap (fun current_sets =>
      (List.range ev.conf_.count).flatMap (fun _ =>
        ev.ptr_arr.flatMap (reloadEvents Forceful) ++ ev.trialEvents h O current_sets)
      ++ lineEvents ev.conf_.count
          (fun i d => fmt.format "0,\x7b\x7d,access,hit,\x7b\x7d,\x7b\x7d,\x7b\x7d"
            [method, toString current_sets, i, d]))
  ++ flushEvents true ev.ptr
  ++ ev.ptr_arr.flatMap (flushEvents true)
  ++ (List.range ev.conf_.count).flatMap (fun _ => flushEvents Forceful ev.ptr ++ R ev.ptr)
  ++ lineEvents ev.conf_.count
      (fun i d => fmt.format "0,\x7b\x7d,raw,miss,0,\x7b\x7d,\x7b\x7d" [method, i, d])
  ++ (List.range' 1 (ev.conf_.sets + 1 - 1)).flatMap (fun current_sets =>
      (List.range ev.conf_.count).flatMap (fun _ =>
        ev.ptr_arr.flatMap (flushEvents Forceful) ++ ev.trialEvents h O current_sets)
      ++ lineEvents ev.conf_.count
          (fun i d => fmt.format "0,\x7b\x7d,access,miss,\x7b\x7d,\x7b\x7d,\x7b\x7d"
            [method, toString current_sets, i, d]))

/-- The actions of `process` before its wait loop. -/
def Evaluator.setupEvents (h : Host) (ev : Evaluator) : List Event :=
  (match ev.conf_.cpu_to_pin with
    | some cpu => [.set_affinity cpu]
    | none => [])
  ++ [.set_scheduling ev.conf_.self_policy ev.conf_.self_priority,
      .debug_info (fmt.format "[Evaluator] running on \x7b\x7d" [h.thread_info])]
  ++ (if h.x86_64 then [] else timedEvents .default_timing_facility [])

/-- The actions of the wait loop of `process` when the successive polls observe the
given states. -/
def waitEvents (start_immediately : Bool) : List GlobalState → List Event
  | [] => []
  | g :: polls =>
    .poll g ::
      (if !g.is_started && !start_immediately then
        .sleep_for 1 :: waitEvents start_immediately polls
      else [])

/-- Whether the wait loop of `process` is left within the given polls. -/
def waitDone (start_immediately : Bool) : List GlobalState → Bool
  | [] => false
  | g :: polls =>
    if !g.is_started && !start_immediately then waitDone start_immediately polls else true

/-- The actions of the call of `measure` for a method. -/
def Evaluator.methodEvents (h : Host) (ev : Evaluator) (k : Method) : List Event :=
  ev.measureEvents h (k.rawEvents h) (k.opEvents h) k.label false

/-- The actions of `process` after its wait loop. -/
def Evaluator.measurementEvents (h : Host) (ev : Evaluator) : List Event :=
  .app_info header ::
    (ev.methodEvents h .flush_flush ++ ev.methodEvents h .flush_prefetch
      ++ ev.methodEvents h .flush_reload)
    ++ [.debug_info "[Evaluator] finished measurements"]

/-- The actions of `process`. -/
def Evaluator.processEvents (h : Host) (ev : Evaluator) (polls : List GlobalState) :
    List Event :=
  ev.setupEvents h ++ waitEvents ev.conf_.start_immediately polls
    ++ (if waitDone ev.conf_.start_immediately polls then ev.measurementEvents h else [])

/-- The observation `g` does not depend on the duration a record line reports, for the
four kinds of record lines of a method. -/
def BlindLines {β : Type} (g : Event → Option β) (method : String) : Prop :=
  Blind g (fun i d => fmt.format "0,\x7b\x7d,raw,hit,0,\x7b\x7d,\x7b\x7d" [method, i, d])
  ∧ (∀ cs : Nat, Blind g (fun i d =>
      fmt.format "0,\x7b\x7d,access,hit,\x7b\x7d,\x7b\x7d,\x7b\x7d" [method, toString cs, i, d]))
  ∧ Blind g (fun i d => fmt.format "0,\x7b\x7d,raw,miss,0,\x7b\x7d,\x7b\x7d" [method, i, d])
  ∧ (∀ cs : Nat, Blind g (fun i d =>
      fmt.format "0,\x7b\x7d,access,miss,\x7b\x7d,\x7b\x7d,\x7b\x7d" [method, toString cs, i, d]))

/-- Memory actions: the flushes, prefetches and reads. -/
def Event.isMemory : Event → Bool
  | .flush _ => true
  | .prefetch _ => true
  | .access_read _ => true
  | _ => false

/-- The memory actions of one call of `measure` for a method, in order: what is
left of its actions when the timing windows, the yields and the log lines are taken
out. -/
def memoryReference (k : Method) (count sets : Nat) : List Event :=
  (List.range count).flatMap (fun _ =>
      List.replicate 4 (Event.access_read .var) ++ [k.first .var])
  ++ (List.range' 1 sets).flatMap (fun s =>
      (List.range count).flatMap (fun _ =>
        (List.range 64).flatMap (fun i => List.replicate 4 (Event.access_read (.arr i)))
          ++ (List.range s).flatMap (fun j => k.first (.arr j) :: k.cleanup (.arr j))))
  ++ [Event.flush .var]
  ++ (List.range 64).map (fun i => Event.flush (.arr i))
  ++ (List.range count).flatMap (fun _ =>
      List.replicate 3 (Event.flush .var) ++ [k.first .var])
  ++ (List.range' 1 sets).flatMap (fun s =>
      (List.range count).flatMap (fun _ =>
        (List.range 64).flatMap (fun i => List.replicate 3 (Event.flush (.arr i)))
          ++ (List.range s).flatMap (fun j => k.first (.arr j) :: k.cleanup (.arr j))))

/-- An action with the text of its log line, if it writes one, left out. -/
def Event.erase : Event → Event
  | .app_info _ => .app_info ""
  | e => e

/-- What a run does to be observed: its memory actions and the lines it writes to the
application log. -/
def Event.isAction : Event → Bool
  | .app_info _ => true
  | e => e.isMemory

/-! ## Costs and durations -/

/-- Perform the actions of a list, in order. -/
def replay (h : Host) (E : List Event) (m : Machine) : Machine :=
  E.foldl (fun m e => m.emit h e) m

/-- The time the actions of a list take, performed in order from a cache state. -/
def runCost (h : Host) : List Event → Cache → Nat
  | [], _ => 0
  | e :: E, c => h.cost e c + runCost h E (e.effect h c)

/-- The cache state the actions of a list leave, performed in order from a cache
state. -/
def runCache (h : Host) : List Event → Cache → Cache
  | [], c => c
  | e :: E, c => runCache h E (e.effect h c)

/-- The address a memory action is about. -/
def Event.address : Event → Option Address
  | .flush a => some a
  | .prefetch a => some a
  | .access_read a => some a
  | _ => none

/-- A timing backend in which the time of an action is a function of the residency of
its address: the time an action takes is determined by the action and, for a memory
action, by whether its address is resident, and a memory action on an address that is
not resident (a miss) takes strictly longer than the same action on a resident address
(a hit). -/
def Host.ResidencyTimed (h : Host) : Prop :=
  (∀ e c c', (∀ a, e.address = some a → c a = c' a) → h.cost e c = h.cost e c')
  ∧ (∀ e a c c', e.address = some a → c a = true → c' a = false → h.cost e c < h.cost e c')

/-- A residency-timed backend whose times are small enough for the longest timed window
of the program, 64 channel operations of at most 4 actions each, to fit in a `return_t`
without wrapping: every action takes less than `2 ^ 56`. -/
def Host.SimulatedBackend (h : Host) : Prop :=
  h.ResidencyTimed ∧ ∀ e c, h.cost e c < 2 ^ 56

/-- A residency-timed host whose miss time is the largest `return_t`: a memory action
takes 1 time unit on a resident line and `2 ^ 64 - 1` on a line that is not resident,
every other action takes no time, and prefetch hints are honoured. -/
def Host.wrapping : Host :=
  { x86_64 := true
    cost := fun e c =>
      match e with
      | .flush a => if c a then 1 else 2 ^ 64 - 1
      | .prefetch a => if c a then 1 else 2 ^ 64 - 1
      | .access_read a => if c a then 1 else 2 ^ 64 - 1
      | _ => 0
    prefetchLoads := fun _ _ => true
    thread_info := "main" }

/-- The actions inside the window of `measure_duration` in a sweep trial at size `s` for
a method: for each of the table entries `0..s-1` in turn, the timing window of its first
action, with its fences, and its cleanup. -/
def windowEvents (h : Host) (k : Method) (s : Nat) : List Event :=
  (List.range s).flatMap (fun j =>
    [Event.tic (h.strategy k.tsc), k.first (.arr j), Event.toc (h.strategy k.tsc)]
      ++ k.cleanup (.arr j))

/-- The durations of the records of a category, class and footprint size in a log, in
the order of the log. -/
def durationsOf (c : Category) (k : HitMiss) (size : Nat) (log : List String) : List Nat :=
  log.filterMap (fun line =>
    match parseRecord line with
    | some r =>
      if r.key.category = c ∧ r.key.cls = k ∧ r.key.size = size then some r.duration else none
    | none => none)

/-- The arithmetic mean of a list of durations. -/
def mean (l : List Nat) : ℚ :=
  (l.sum : ℚ) / (l.length : ℚ)

/-- The `static` holders have the size they are given by their initialisers in a run
with this iteration count. -/
def Holders.sized (count : Nat) (hs : Holders) : Prop :=
  hs.raw_hit_holder.length = count ∧ hs.raw_miss_holder.length = count
    ∧ hs.op_hit_holder.length = count ∧ hs.op_miss_holder.length = count

/-- A line is a record and, when it is an access record, its duration is as `PH` (for
a hit) or `PM` (for a miss) says for its footprint size. -/
def LineOk (PH PM : Nat → Nat → Prop) (line : String) : Prop :=
  ∃ r, parseRecord line = some r
    ∧ (r.key.category = .access →
        (r.key.cls = .hit → PH r.key.size r.duration)
        ∧ (r.key.cls = .miss → PM r.key.size r.duration))

/-! ## Theorems -/

section TraceLemmas

variable {σ β ι : Type} {tr : σ → List Event} {g : Event → Option β}

theorem Emits.skip : Emits tr g (fun s => s) [] := by
  intro s; simp

theorem Emits.emit (g : Event → Option β) (h : Host) (e : Event) :
    Emits Machine.trace g (Machine.emit h e) [e] := by
  intro m
  simp [Machine.emit, List.filterMap_append]

theorem Emits.comp {f f' : σ → σ} {E E' : List Event} (hf : Emits tr g f E)
    (hf' : Emits tr g f' E') : Emits tr g (fun s => f' (f s)) (E ++ E') := by
  intro s
  rw [hf', hf, List.append_assoc, List.filterMap_append]

theorem Emits.congr {f : σ → σ} {E E' : List Event} (hf : Emits tr g f E) (hE : E = E') :
    Emits tr g f E' := hE ▸ hf

theorem Emits.foldl (body : ι → σ → σ) (E : ι → List Event) (l : List ι)
    (hb : ∀ i ∈ l, Emits tr g (body i) (E i)) :
    Emits tr g (fun s => l.foldl (fun s i => body i s) s) (l.flatMap E) := by
  induction l with
  | nil => intro s; simp
  | cons a l ih =>
    intro s
    have ha := hb a (List.mem_cons_self a l)
    have hl := ih (fun i hi => hb i (List.mem_cons_of_mem a hi))
    simp only [List.foldl_cons, List.flatMap_cons]
    rw [hl, ha, List.append_assoc, List.filterMap_append]

theorem Emits.forLoop (n : Nat) (body : Nat → σ → σ) (E : Nat → List Event)
    (hb : ∀ i, i < n → Emits tr g (body i) (E i)) :
    Emits tr g (CacheHist.forLoop n body) ((List.range n).flatMap E) :=
  Emits.foldl body E _ (fun i hi => hb i (List.mem_range.mp hi))

theorem Emits.forFromTo (first last : Nat) (body : Nat → σ → σ) (E : Nat → List Event)
    (hb : ∀ i, first ≤ i → i ≤ last → Emits tr g (body i) (E i)) :
    Emits tr g (CacheHist.forFromTo first last body)
      ((List.range' first (last + 1 - first)).flatMap E) :=
  Emits.foldl body E _ (fun i hi => by
    have := List.mem_range'_1.mp hi
    exact hb i this.1 (by omega))

theorem Emits.const_for (b e : Nat) (body : Nat → Machine → Machine) (E : Nat → List Event)
    (hb : ∀ i, Emits Machine.trace g (body i) (E i)) :
    Emits Machine.trace g (CacheHist.const_for b e body) ((List.range' b (e - b)).flatMap E) :=
  Emits.foldl body E _ (fun i _ => hb i)

theorem Emits.timeit (h : Host) (s : Strategy) {f : Machine → Machine} {E : List Event}
    (hf : Emits Machine.trace g f E) :
    Emits Machine.trace g (fun m => (CacheHist.timeit h s f m).2) (timedEvents s E) :=
  (((Emits.emit g h (.tic s)).comp hf).comp (Emits.emit g h (.toc s))).congr (by
    simp [timedEvents])

end TraceLemmas

section Operations

variable {β : Type} (g : Event → Option β) (h : Host)

theorem util.reload_emits (Forceful : Bool) (a : Address) :
    Emits Machine.trace g (util.reload h Forceful a) (reloadEvents Forceful a) := by
  have h4 : Emits Machine.trace g (const_for 0 4 (fun _ m => m.emit h (.access_read a)))
      (List.replicate 4 (Event.access_read a)) :=
    (Emits.const_for 0 4 _ _ (fun _ => Emits.emit g h (.access_read a))).congr (by
      simp [List.range', List.replicate])
  cases Forceful with
  | false => simpa [util.reload, reloadEvents] using h4
  | true =>
    simpa [util.reload, reloadEvents] using (h4.comp (Emits.emit g h .yield)).comp h4

theorem util.reload_each_emits (Forceful : Bool) (as : List Address) :
    Emits Machine.trace g (util.reload_each h Forceful as)
      (as.flatMap (reloadEvents Forceful)) :=
  Emits.foldl (fun a => util.reload h Forceful a) _ as
    (fun a _ => util.reload_emits g h Forceful a)

theorem util.flush_emits (Forceful : Bool) (a : Address) :
    Emits Machine.trace g (util.flush h Forceful a) (flushEvents Forceful a) := by
  have h1 : Emits Machine.trace g (fun m => (m.emit h (.flush a)).emit h .yield)
      [.flush a, .yield] :=
    (Emits.emit g h (.flush a)).comp (Emits.emit g h .yield)
  cases Forceful with
  | true => simpa [util.flush, flushEvents] using h1
  | false =>
    simpa [util.flush, flushEvents] using
      (Emits.const_for 0 3 (fun _ m => (m.emit h (.flush a)).emit h .yield) _
        (fun _ => h1)).congr (by simp [List.range'])

theorem util.flush_each_emits (Forceful : Bool) (as : List Address) :
    Emits Machine.trace g (util.flush_each h Forceful as)
      (as.flatMap (flushEvents Forceful)) :=
  Emits.foldl (fun a => util.flush h Forceful a) _ as
    (fun a _ => util.flush_emits g h Forceful a)

theorem Method.raw_emits (k : Method) (a : Address) :
    Emits Machine.trace g (fun m => (k.raw h a m).2) (k.rawEvents h a) := by
  cases k <;> cases hx : h.x86_64 <;>
    simpa [Method.raw, Method.rawEvents, Method.tsc, Method.first, Host.strategy, hx,
      raw.flush, raw.prefetch, raw.reload] using
      Emits.timeit (g := g) h _ (Emits.emit g h _)

theorem Method.op_emits (k : Method) (a : Address) :
    Emits Machine.trace g (fun m => (k.op h a m).2) (k.opEvents h a) := by
  cases k <;> cases hx : h.x86_64 <;>
    first
    | simpa [Method.op, Method.opEvents, Method.tsc, Method.first, Method.cleanup,
        Host.strategy, hx, channel_access.flush_flush] using
        Emits.timeit (g := g) h _ (Emits.emit g h _)
    | simpa [Method.op, Method.opEvents, Method.tsc, Method.first, Method.cleanup,
        Host.strategy, hx, channel_access.flush_prefetch, channel_access.flush_reload] using
        (Emits.timeit (g := g) h _ (Emits.emit g h _)).comp (Emits.emit g h (.flush a))

theorem Evaluator.measure_duration_emits (ev : Evaluator) {f : Machine → Machine}
    {E : List Event} (hf : Emits Machine.trace g f E) :
    Emits Machine.trace g (fun m => (ev.measure_duration h f m).2)
      (timedEvents (ev.durationStrategy h) E) := by
  unfold Evaluator.measure_duration Evaluator.durationStrategy
  cases h.x86_64 <;> cases ev.conf_.measure_with_perf <;>
    simpa using Emits.timeit (g := g) h _ hf

end Operations

section Measure

variable {β : Type} (g : Event → Option β) (h : Host)

theorem Emits.emit_of_eq {e e' : Event} (hg : g e = g e') :
    Emits Machine.trace g (Machine.emit h e) [e'] := by
  intro m
  simp [Machine.emit, List.filterMap_append, List.filterMap_cons, hg]

theorem Evaluator.dump_emits (count : Nat) (line : String → String → String)
    (hline : Blind g line) (holder : List Nat) :
    Emits Machine.trace g (Evaluator.dump h count line holder) (lineEvents count line) :=
  (Emits.forLoop count _ (fun i => [.app_info (line (toString i) (toString 0))])
    (fun i _ => Emits.emit_of_eq g h (hline i (holder.getD i 0)))).congr (by
      simp only [lineEvents]
      induction List.range count with
      | nil => rfl
      | cons a l ih => simp [List.flatMap_cons, ih])

theorem Evaluator.fill_emits (count : Nat) {prepare : Machine → Machine}
    {timed : Machine → Nat × Machine} {P T : List Event}
    (hp : Emits Machine.trace g prepare P)
    (ht : Emits Machine.trace g (fun m => (timed m).2) T) :
    Emits (fun s : Machine × List Nat => s.1.trace) g (Evaluator.fill count prepare timed)
      ((List.range count).flatMap (fun _ => P ++ T)) :=
  Emits.forLoop count _ _ (fun _ _ s => hp.comp ht s.1)

theorem Evaluator.apply_op_emits (ev : Evaluator) {op : Address → Machine → Nat × Machine}
    {O : Address → List Event} (hop : ∀ a, Emits Machine.trace g (fun m => (op a m).2) (O a))
    (current_sets : Nat) :
    Emits Machine.trace g (ev.apply_op op current_sets)
      ((List.range current_sets).flatMap (fun j => O (ev.ptr_arr.getD j Address.unset))) :=
  Emits.forLoop current_sets _ _ (fun j _ => hop (ev.ptr_arr.getD j Address.unset))

theorem Evaluator.measure_emits (ev : Evaluator)
    {raw op : Address → Machine → Nat × Machine} {R O : Address → List Event}
    (hraw : ∀ a, Emits Machine.trace g (fun m => (raw a m).2) (R a))
    (hop : ∀ a, Emits Machine.trace g (fun m => (op a m).2) (O a))
    (method : String) (Forceful : Bool)
    (h1 : Blind g (fun i d => fmt.format "0,\x7b\x7d,raw,hit,0,\x7b\x7d,\x7b\x7d" [method, i, d]))
    (h2 : ∀ cs : Nat, Blind g (fun i d =>
      fmt.format "0,\x7b\x7d,access,hit,\x7b\x7d,\x7b\x7d,\x7b\x7d" [method, toString cs, i, d]))
    (h3 : Blind g (fun i d => fmt.format "0,\x7b\x7d,raw,miss,0,\x7b\x7d,\x7b\x7d" [method, i, d]))
    (h4 : ∀ cs : Nat, Blind g (fun i d =>
      fmt.format "0,\x7b\x7d,access,miss,\x7b\x7d,\x7b\x7d,\x7b\x7d" [method, toString cs, i, d])) :
    Emits (fun s : Machine × Option Holders => s.1.trace) g
      (ev.measure h raw op method Forceful) (ev.measureEvents h R O method Forceful) := by
  intro s
  have hsweepHit := fun init => @Emits.forFromTo (Machine × List Nat) β
    (fun s : Machine × List Nat => s.1.trace) g 1 ev.conf_.sets
    (fun current_sets s =>
      ((Evaluator.dump h ev.conf_.count
        (fun i d => fmt.format "0,\x7b\x7d,access,hit,\x7b\x7d,\x7b\x7d,\x7b\x7d"
          [method, toString current_sets, i, d])
        (Evaluator.fill ev.conf_.count (util.reload_each h Forceful ev.ptr_arr)
          (ev.measure_duration h (ev.apply_op op current_sets)) s).2
        (Evaluator.fill ev.conf_.count (util.reload_each h Forceful ev.ptr_arr)
          (ev.measure_duration h (ev.apply_op op current_sets)) s).1),
       (Evaluator.fill ev.conf_.count (util.reload_each h Forceful ev.ptr_arr)
          (ev.measure_duration h (ev.apply_op op current_sets)) s).2))
    _ (fun cs _ _ s => by
      show List.filterMap g (Evaluator.dump h _ _ _ _).trace = _
      rw [Evaluator.dump_emits g h _ _ (h2 cs),
        Evaluator.fill_emits g ev.conf_.count (util.reload_each_emits g h Forceful ev.ptr_arr)
          (ev.measure_duration_emits g h (ev.apply_op_emits g hop cs)),
        List.append_assoc, ← List.filterMap_append]) init
  have hsweepMiss := fun init => @Emits.forFromTo (Machine × List Nat) β
    (fun s : Machine × List Nat => s.1.trace) g 1 ev.conf_.sets
    (fun current_sets s =>
      ((Evaluator.dump h ev.conf_.count
        (fun i d => fmt.format "0,\x7b\x7d,access,miss,\x7b\x7d,\x7b\x7d,\x7b\x7d"
          [method, toString current_sets, i, d])
        (Evaluator.fill ev.conf_.count (util.flush_each h Forceful ev.ptr_arr)
          (ev.measure_duration h (ev.apply_op op current_sets)) s).2
        (Evaluator.fill ev.conf_.count (util.flush_each h Forceful ev.ptr_arr)
          (ev.measure_duration h (ev.apply_op op current_sets)) s).1),
       (Evaluator.fill ev.conf_.count (util.flush_each h Forceful ev.ptr_arr)
          (ev.measure_duration h (ev.apply_op op current_sets)) s).2))
    _ (fun cs _ _ s => by
      show List.filterMap g (Evaluator.dump h _ _ _ _).trace = _
      rw [Evaluator.dump_emits g h _ _ (h4 cs),
        Evaluator.fill_emits g ev.conf_.count (util.flush_each_emits g h Forceful ev.ptr_arr)
          (ev.measure_duration_emits g h (ev.apply_op_emits g hop cs)),
        List.append_assoc, ← List.filterMap_append]) init
  simp only [Evaluator.measure, Evaluator.measureEvents]
  rw [hsweepMiss, Evaluator.dump_emits g h _ _ h3,
    Evaluator.fill_emits g ev.conf_.count (util.flush_emits g h Forceful ev.ptr) (hraw ev.ptr),
    util.flush_each_emits g h true ev.ptr_arr, util.flush_emits g h true ev.ptr,
    hsweepHit, Evaluator.dump_emits g h _ _ h1,
    Evaluator.fill_emits g ev.conf_.count (util.reload_emits g h Forceful ev.ptr) (hraw ev.ptr)]
  simp only [List.filterMap_append, List.append_assoc, Evaluator.trialEvents]

end Measure

section Parsing

theorem splitComma_append (a rest : List Char) (ha : ',' ∉ a) :
    splitComma (a ++ ',' :: rest) = a :: splitComma rest := by
  induction a with
  | nil => simp [splitComma]
  | cons c a ih =>
    have hc : c ≠ ',' := fun hEq => ha (by simp [hEq])
    have ha' : ',' ∉ a := fun hm => ha (List.mem_cons_of_mem c hm)
    simp [splitComma, hc, ih ha']

theorem splitComma_last (a : List Char) (ha : ',' ∉ a) : splitComma a = [a] := by
  induction a with
  | nil => simp [splitComma]
  | cons c a ih =>
    have hc : c ≠ ',' := fun hEq => ha (by simp [hEq])
    have ha' : ',' ∉ a := fun hm => ha (List.mem_cons_of_mem c hm)
    simp [splitComma, hc, ih ha']

theorem digitValue_digitChar (k : Nat) (hk : k < 10) : digitValue (Nat.digitChar k) = some k := by
  interval_cases k <;> rfl

theorem digitChar_ne_comma (k : Nat) (hk : k < 10) : Nat.digitChar k ≠ ',' := by
  interval_cases k <;> decide

theorem toDigitsCore_fold (fuel : Nat) : ∀ (n : Nat) (ds : List Char), n < fuel →
    (Nat.toDigitsCore 10 fuel n ds).foldl parseStep (some 0) = ds.foldl parseStep (some n) := by
  induction fuel with
  | zero => intro n ds hn; omega
  | succ fuel ih =>
    intro n ds hn
    have hd := digitValue_digitChar (n % 10) (Nat.mod_lt n (by decide))
    by_cases h0 : n / 10 = 0
    · have hn10 : n % 10 = n := by omega
      have hlt : n < 10 := by omega
      simp [Nat.toDigitsCore, h0, parseStep, Nat.mod_eq_of_lt hlt, digitValue_digitChar n hlt]
    · have hlt : n / 10 < fuel := by omega
      simp only [Nat.toDigitsCore, h0, if_false]
      rw [ih (n / 10) _ hlt]
      have : n / 10 * 10 + n % 10 = n := by omega
      simp [parseStep, hd, this]

theorem toDigitsCore_ne_nil (fuel : Nat) : ∀ (n : Nat) (ds : List Char), 0 < fuel →
    Nat.toDigitsCore 10 fuel n ds ≠ [] := by
  induction fuel with
  | zero => intro n ds hn; omega
  | succ fuel ih =>
    intro n ds _
    by_cases h0 : n / 10 = 0
    · simp [Nat.toDigitsCore, h0]
    · simp only [Nat.toDigitsCore, h0, if_false]
      cases fuel with
      | zero => simp [Nat.toDigitsCore]
      | succ f => exact ih _ _ (Nat.succ_pos f)

theorem toDigitsCore_no_comma (fuel : Nat) : ∀ (n : Nat) (ds : List Char), ',' ∉ ds →
    ',' ∉ Nat.toDigitsCore 10 fuel n ds := by
  induction fuel with
  | zero => intro n ds hds; simpa [Nat.toDigitsCore] using hds
  | succ fuel ih =>
    intro n ds hds
    have hc := digitChar_ne_comma (n % 10) (Nat.mod_lt n (by decide))
    have hds' : ',' ∉ Nat.digitChar (n % 10) :: ds := by
      simp only [List.mem_cons, not_or]
      exact ⟨fun hEq => hc hEq.symm, hds⟩
    by_cases h0 : n / 10 = 0
    · simpa [Nat.toDigitsCore, h0] using hds'
    · simp only [Nat.toDigitsCore, h0, if_false]
      exact ih _ _ hds'

theorem parseNat_toString (n : Nat) : parseNat (toString n).data = some n := by
  show parseNat (Nat.toDigitsCore 10 (n + 1) n []) = some n
  have hne := toDigitsCore_ne_nil (n + 1) n [] (Nat.succ_pos n)
  have hf := toDigitsCore_fold (n + 1) n [] (Nat.lt_succ_self n)
  cases hl : Nat.toDigitsCore 10 (n + 1) n [] with
  | nil => exact absurd hl hne
  | cons c cs => rw [hl] at hf; simpa [parseNat] using hf

theorem toString_no_comma (n : Nat) : ',' ∉ (toString n).data :=
  toDigitsCore_no_comma (n + 1) n [] (by simp)

theorem parseRecord_raw_hit (method : String) (hm : ',' ∉ method.data) (i d : Nat) :
    parseRecord (fmt.format "0,\x7b\x7d,raw,hit,0,\x7b\x7d,\x7b\x7d"
        [method, toString i, toString d])
      = some { placeholder := 0
               key := { method := method, category := .raw, cls := .hit, size := 0, index := i }
               duration := d } := by
  have hfmt : (fmt.format "0,\x7b\x7d,raw,hit,0,\x7b\x7d,\x7b\x7d"
      [method, toString i, toString d]).data
      = "0".data ++ ',' :: (method.data ++ ',' :: ("raw".data ++ ',' :: ("hit".data ++ ',' ::
          ("0".data ++ ',' :: ((toString i).data ++ ',' :: ((toString d).data ++ [])))))) := rfl
  unfold parseRecord
  rw [hfmt, List.append_nil, splitComma_append _ _ (by decide), splitComma_append _ _ hm,
    splitComma_append _ _ (by decide), splitComma_append _ _ (by decide),
    splitComma_append _ _ (by decide), splitComma_append _ _ (toString_no_comma i),
    splitComma_last _ (toString_no_comma d)]
  simp only [parseNat_toString]
  rfl

theorem parseRecord_raw_miss (method : String) (hm : ',' ∉ method.data) (i d : Nat) :
    parseRecord (fmt.format "0,\x7b\x7d,raw,miss,0,\x7b\x7d,\x7b\x7d"
        [method, toString i, toString d])
      = some { placeholder := 0
               key := { method := method, category := .raw, cls := .miss, size := 0, index := i }
               duration := d } := by
  have hfmt : (fmt.format "0,\x7b\x7d,raw,miss,0,\x7b\x7d,\x7b\x7d"
      [method, toString i, toString d]).data
      = "0".data ++ ',' :: (method.data ++ ',' :: ("raw".data ++ ',' :: ("miss".data ++ ',' ::
          ("0".data ++ ',' :: ((toString i).data ++ ',' :: ((toString d).data ++ [])))))) := rfl
  unfold parseRecord
  rw [hfmt, List.append_nil, splitComma_append _ _ (by decide), splitComma_append _ _ hm,
    splitComma_append _ _ (by decide), splitComma_append _ _ (by decide),
    splitComma_append _ _ (by decide), splitComma_append _ _ (toString_no_comma i),
    splitComma_last _ (toString_no_comma d)]
  simp only [parseNat_toString]
  rfl

theorem parseRecord_access_hit (method : String) (hm : ',' ∉ method.data) (cs i d : Nat) :
    parseRecord (fmt.format "0,\x7b\x7d,access,hit,\x7b\x7d,\x7b\x7d,\x7b\x7d"
        [method, toString cs, toString i, toString d])
      = some { placeholder := 0
               key := { method := method, category := .access, cls := .hit, size := cs, index := i }
               duration := d } := by
  have hfmt : (fmt.format "0,\x7b\x7d,access,hit,\x7b\x7d,\x7b\x7d,\x7b\x7d"
      [method, toString cs, toString i, toString d]).data
      = "0".data ++ ',' :: (method.data ++ ',' :: ("access".data ++ ',' :: ("hit".data ++ ',' ::
          ((toString cs).data ++ ',' :: ((toString i).data ++ ',' :: ((toString d).data ++ [])))))) := rfl
  unfold parseRecord
  rw [hfmt, List.append_nil, splitComma_append _ _ (by decide), splitComma_append _ _ hm,
    splitComma_append _ _ (by decide), splitComma_append _ _ (by decide),
    splitComma_append _ _ (toString_no_comma cs), splitComma_append _ _ (toString_no_comma i),
    splitComma_last _ (toString_no_comma d)]
  simp only [parseNat_toString]
  rfl

theorem parseRecord_access_miss (method : String) (hm : ',' ∉ method.data) (cs i d : Nat) :
    parseRecord (fmt.format "0,\x7b\x7d,access,miss,\x7b\x7d,\x7b\x7d,\x7b\x7d"
        [method, toString cs, toString i, toString d])
      = some { placeholder := 0
               key := { method := method, category := .access, cls := .miss, size := cs, index := i }
               duration := d } := by
  have hfmt : (fmt.format "0,\x7b\x7d,access,miss,\x7b\x7d,\x7b\x7d,\x7b\x7d"
      [method, toString cs, toString i, toString d]).data
      = "0".data ++ ',' :: (method.data ++ ',' :: ("access".data ++ ',' :: ("miss".data ++ ',' ::
          ((toString cs).data ++ ',' :: ((toString i).data ++ ',' :: ((toString d).data ++ [])))))) := rfl
  unfold parseRecord
  rw [hfmt, List.append_nil, splitComma_append _ _ (by decide), splitComma_append _ _ hm,
    splitComma_append _ _ (by decide), splitComma_append _ _ (by decide),
    splitComma_append _ _ (toString_no_comma cs), splitComma_append _ _ (toString_no_comma i),
    splitComma_last _ (toString_no_comma d)]
  simp only [parseNat_toString]
  rfl

theorem Method.label_no_comma (k : Method) : ',' ∉ k.label.data := by
  cases k <;> decide

theorem parseRecord_header : parseRecord header = none := by
  rfl

end Parsing

section Process

variable {β : Type} (g : Event → Option β) (h : Host)

theorem Evaluator.method_emits (ev : Evaluator) (k : Method) (hb : BlindLines g k.label) :
    Emits (fun s : Machine × Option Holders => s.1.trace) g
      (ev.measure h (k.raw h) (k.op h) k.label false) (ev.methodEvents h k) :=
  ev.measure_emits g h (Method.raw_emits g h k) (Method.op_emits g h k) k.label false
    hb.1 hb.2.1 hb.2.2.1 hb.2.2.2

theorem Evaluator.wait_done (start_immediately : Bool) (polls : List GlobalState) :
    ∀ m, (Evaluator.wait h start_immediately polls m).2 = waitDone start_immediately polls := by
  induction polls with
  | nil => intro m; rfl
  | cons p polls ih =>
    intro m
    by_cases hp : (!p.is_started && !start_immediately) = true
    · simp only [Evaluator.wait, waitDone, hp, if_true]; exact ih _
    · simp only [Evaluator.wait, waitDone, hp, if_false]; simp

theorem Evaluator.wait_emits (start_immediately : Bool) (polls : List GlobalState) :
    Emits Machine.trace g (fun m => (Evaluator.wait h start_immediately polls m).1)
      (waitEvents start_immediately polls) := by
  induction polls with
  | nil => intro m; simp [Evaluator.wait, waitEvents]
  | cons p polls ih =>
    by_cases hp : (!p.is_started && !start_immediately) = true
    · have := ((Emits.emit g h (.poll p)).comp (Emits.emit g h (.sleep_for 1))).comp ih
      intro m
      simpa only [Evaluator.wait, waitEvents, hp, if_true] using this m
    · intro m
      simpa [Evaluator.wait, waitEvents, hp] using Emits.emit g h (.poll p) m

theorem Evaluator.setup_emits (ev : Evaluator) :
    Emits Machine.trace g
      (fun m =>
        if h.x86_64 then
          ((match ev.conf_.cpu_to_pin with
            | some cpu => m.emit h (.set_affinity cpu)
            | none => m).emit h
              (.set_scheduling ev.conf_.self_policy ev.conf_.self_priority)).emit h
            (.debug_info (fmt.format "[Evaluator] running on \x7b\x7d" [h.thread_info]))
        else
          (CacheHist.timeit h .default_timing_facility id
            (((match ev.conf_.cpu_to_pin with
              | some cpu => m.emit h (.set_affinity cpu)
              | none => m).emit h
                (.set_scheduling ev.conf_.self_policy ev.conf_.self_priority)).emit h
              (.debug_info (fmt.format "[Evaluator] running on \x7b\x7d" [h.thread_info])))).2)
      (ev.setupEvents h) := by
  have hpin : Emits Machine.trace g
      (fun m => match ev.conf_.cpu_to_pin with
        | some cpu => m.emit h (.set_affinity cpu)
        | none => m)
      (match ev.conf_.cpu_to_pin with
        | some cpu => [.set_affinity cpu]
        | none => []) := by
    cases ev.conf_.cpu_to_pin with
    | none => exact Emits.skip
    | some cpu => exact Emits.emit g h _
  have h3 := (hpin.comp (Emits.emit g h
    (.set_scheduling ev.conf_.self_policy ev.conf_.self_priority))).comp (Emits.emit g h
    (.debug_info (fmt.format "[Evaluator] running on \x7b\x7d" [h.thread_info])))
  cases hx : h.x86_64 with
  | true => simpa [Evaluator.setupEvents, hx] using h3
  | false =>
    have ht := Emits.timeit (g := g) h .default_timing_facility (f := id) (E := [])
      (Emits.skip)
    simpa [Evaluator.setupEvents, hx] using h3.comp ht

theorem Evaluator.process_status (ev : Evaluator) (polls : List GlobalState) (m : Machine) :
    (ev.process h polls m).status
      = if waitDone ev.conf_.start_immediately polls then .finished else .waiting := by
  unfold Evaluator.process
  simp only [Evaluator.wait_done]
  cases waitDone ev.conf_.start_immediately polls <;> simp

theorem Evaluator.process_emits (ev : Evaluator) (polls : List GlobalState)
    (hb : ∀ k : Method, BlindLines g k.label) :
    Emits Machine.trace g (fun m => (ev.process h polls m).machine) (ev.processEvents h polls) := by
  have hpre := (ev.setup_emits g h).comp (Evaluator.wait_emits g h ev.conf_.start_immediately polls)
  intro m
  have hm := hpre m
  unfold Evaluator.process
  simp only [Evaluator.wait_done, Evaluator.processEvents]
  cases hd : waitDone ev.conf_.start_immediately polls with
  | false =>
    cases hx : h.x86_64 <;> simp only [hx, if_true, if_false, Bool.false_eq_true] at hm ⊢ <;>
      simpa using hm
  | true =>
    have e1 : ∀ s, List.filterMap g (ev.measure h (raw.flush h) (channel_access.flush_flush h)
        "flush_flush" false s).1.trace
        = List.filterMap g s.1.trace ++ List.filterMap g (ev.methodEvents h .flush_flush) :=
      ev.method_emits g h .flush_flush (hb _)
    have e2 : ∀ s, List.filterMap g (ev.measure h (raw.prefetch h)
        (channel_access.flush_prefetch h) "flush_prefetch" false s).1.trace
        = List.filterMap g s.1.trace ++ List.filterMap g (ev.methodEvents h .flush_prefetch) :=
      ev.method_emits g h .flush_prefetch (hb _)
    have e3 : ∀ s, List.filterMap g (ev.measure h (raw.reload h)
        (channel_access.flush_reload h) "flush_reload" false s).1.trace
        = List.filterMap g s.1.trace ++ List.filterMap g (ev.methodEvents h .flush_reload) :=
      ev.method_emits g h .flush_reload (hb _)
    have hme : ev.measurementEvents h = [.app_info header] ++ ev.methodEvents h .flush_flush
        ++ ev.methodEvents h .flush_prefetch ++ ev.methodEvents h .flush_reload
        ++ [.debug_info "[Evaluator] finished measurements"] := by
      simp [Evaluator.measurementEvents]
    simp only [if_true]
    rw [Emits.emit g h, e3, e2, e1]
    show List.filterMap g (Machine.emit h (.app_info header) _).trace ++ _ ++ _ ++ _ ++ _ = _
    rw [Emits.emit g h]
    cases hx : h.x86_64 <;> simp only [hx, if_true, if_false, Bool.false_eq_true] at hm ⊢ <;>
      rw [hm, hme] <;>
      simp only [List.filterMap_append, List.append_assoc]

end Process

section Log

variable (h : Host)

theorem lineView_of_record {line : String} {r : Record} (hr : parseRecord line = some r) :
    lineView line = (false, some (r.placeholder, r.key)) := by
  have hne : line ≠ header := fun hEq => by
    rw [hEq, parseRecord_header] at hr
    exact Option.noConfusion hr
  simp [lineView, parseKey, hr, hne]

theorem appLog_append (E E' : List Event) : appLog (E ++ E') = appLog E ++ appLog E' :=
  List.filterMap_append _ _ _

theorem appLog_flatMap {ι : Type} (l : List ι) (E : ι → List Event) :
    appLog (l.flatMap E) = l.flatMap (fun i => appLog (E i)) :=
  List.filterMap_flatMap _ _ _

theorem flatMap_nil_const {ι α : Type} (l : List ι) : l.flatMap (fun _ => ([] : List α)) = [] := by
  induction l with
  | nil => rfl
  | cons a l ih => simp [List.flatMap_cons, ih]

theorem appLog_timedEvents (s : Strategy) (E : List Event) :
    appLog (timedEvents s E) = appLog E := by
  simp [appLog, timedEvents, List.filterMap_append, List.filterMap_cons, Event.appLine]

theorem appLog_reloadEvents (F : Bool) (a : Address) : appLog (reloadEvents F a) = [] := by
  cases F <;> simp [appLog, reloadEvents, List.replicate, List.filterMap_cons, Event.appLine]

theorem appLog_flushEvents (F : Bool) (a : Address) : appLog (flushEvents F a) = [] := by
  cases F <;> simp [appLog, flushEvents, List.filterMap_cons, Event.appLine]

theorem appLog_rawEvents (k : Method) (a : Address) : appLog (k.rawEvents h a) = [] := by
  rw [Method.rawEvents, appLog_timedEvents]
  cases k <;> simp [Method.first, appLog, List.filterMap_cons, Event.appLine]

theorem appLog_opEvents (k : Method) (a : Address) : appLog (k.opEvents h a) = [] := by
  rw [Method.opEvents, appLog_append, appLog_timedEvents]
  cases k <;> simp [Method.first, Method.cleanup, appLog, List.filterMap_cons, Event.appLine]

theorem appLog_lineEvents (count : Nat) (line : String → String → String) :
    appLog (lineEvents count line)
      = (List.range count).map (fun i => line (toString i) (toString 0)) := by
  simp only [appLog, lineEvents]
  induction List.range count with
  | nil => rfl
  | cons a l ih => simp [List.filterMap_cons, Event.appLine, ih]

theorem appLog_trialEvents (ev : Evaluator) (k : Method) (s : Nat) :
    appLog (ev.trialEvents h (k.opEvents h) s) = [] := by
  simp [Evaluator.trialEvents, appLog_timedEvents, appLog_flatMap, appLog_opEvents,
    flatMap_nil_const]

theorem appLog_methodEvents (ev : Evaluator) (k : Method) :
    appLog (ev.methodEvents h k)
      = (List.range ev.conf_.count).map (fun i =>
          fmt.format "0,\x7b\x7d,raw,hit,0,\x7b\x7d,\x7b\x7d" [k.label, toString i, toString 0])
        ++ (List.range' 1 ev.conf_.sets).flatMap (fun cs =>
          (List.range ev.conf_.count).map (fun i =>
            fmt.format "0,\x7b\x7d,access,hit,\x7b\x7d,\x7b\x7d,\x7b\x7d"
              [k.label, toString cs, toString i, toString 0]))
        ++ (List.range ev.conf_.count).map (fun i =>
          fmt.format "0,\x7b\x7d,raw,miss,0,\x7b\x7d,\x7b\x7d" [k.label, toString i, toString 0])
        ++ (List.range' 1 ev.conf_.sets).flatMap (fun cs =>
          (List.range ev.conf_.count).map (fun i =>
            fmt.format "0,\x7b\x7d,access,miss,\x7b\x7d,\x7b\x7d,\x7b\x7d"
              [k.label, toString cs, toString i, toString 0])) := by
  simp [Evaluator.methodEvents, Evaluator.measureEvents, appLog_append, appLog_flatMap,
    appLog_reloadEvents, appLog_flushEvents, appLog_rawEvents, appLog_opEvents,
    appLog_lineEvents, appLog_trialEvents, flatMap_nil_const]

theorem filterMap_view (E : List Event) :
    E.filterMap Event.view = (appLog E).map lineView := by
  simp only [appLog, List.map_filterMap]
  rfl

theorem blindLines_view (k : Method) : BlindLines Event.view k.label := by
  have hm := k.label_no_comma
  refine ⟨fun i d => ?_, fun cs i d => ?_, fun i d => ?_, fun cs i d => ?_⟩ <;>
    simp only [Event.view, Event.appLine, Option.map_some']
  · rw [lineView_of_record (parseRecord_raw_hit _ hm i d),
      lineView_of_record (parseRecord_raw_hit _ hm i 0)]
  · rw [lineView_of_record (parseRecord_access_hit _ hm cs i d),
      lineView_of_record (parseRecord_access_hit _ hm cs i 0)]
  · rw [lineView_of_record (parseRecord_raw_miss _ hm i d),
      lineView_of_record (parseRecord_raw_miss _ hm i 0)]
  · rw [lineView_of_record (parseRecord_access_miss _ hm cs i d),
      lineView_of_record (parseRecord_access_miss _ hm cs i 0)]

theorem view_methodEvents (ev : Evaluator) (k : Method) :
    (appLog (ev.methodEvents h k)).map lineView
      = (referenceMethod k.label ev.conf_.count ev.conf_.sets).map Key.view := by
  have hm := k.label_no_comma
  rw [appLog_methodEvents]
  simp only [referenceMethod, keyBlock, List.map_append, List.map_map, List.map_flatMap,
    Function.comp_def]
  simp only [lineView_of_record (parseRecord_raw_hit _ hm _ _),
    lineView_of_record (parseRecord_access_hit _ hm _ _ _),
    lineView_of_record (parseRecord_raw_miss _ hm _ _),
    lineView_of_record (parseRecord_access_miss _ hm _ _ _), Key.view]

theorem measure_view (ev : Evaluator) (k : Method) (s : Machine × Option Holders) :
    (appLog (ev.measure h (k.raw h) (k.op h) k.label false s).1.trace).map lineView
      = (appLog s.1.trace).map lineView
        ++ (referenceMethod k.label ev.conf_.count ev.conf_.sets).map Key.view := by
  have := ev.method_emits Event.view h k (blindLines_view k) s
  simpa only [filterMap_view, view_methodEvents] using this

theorem appLog_setupEvents (ev : Evaluator) : appLog (ev.setupEvents h) = [] := by
  simp only [Evaluator.setupEvents, appLog_append]
  cases ev.conf_.cpu_to_pin <;> cases h.x86_64 <;>
    simp [appLog, timedEvents, List.filterMap_cons, Event.appLine]

theorem appLog_waitEvents (start_immediately : Bool) (polls : List GlobalState) :
    appLog (waitEvents start_immediately polls) = [] := by
  induction polls with
  | nil => rfl
  | cons p polls ih =>
    by_cases hp : (!p.is_started && !start_immediately) = true
    · simpa [waitEvents, hp, appLog, List.filterMap_cons, Event.appLine] using ih
    · simp [waitEvents, hp, appLog, List.filterMap_cons, Event.appLine]

theorem lineView_header : lineView header = (true, none) := by
  simp [lineView, parseKey, parseRecord_header]

theorem view_measurementEvents (ev : Evaluator) :
    (appLog (ev.measurementEvents h)).map lineView
      = (true, none) :: (reference ev.conf_.count ev.conf_.sets).map Key.view := by
  have hme : ev.measurementEvents h = [.app_info header] ++ ev.methodEvents h .flush_flush
      ++ ev.methodEvents h .flush_prefetch ++ ev.methodEvents h .flush_reload
      ++ [.debug_info "[Evaluator] finished measurements"] := by
    simp [Evaluator.measurementEvents]
  have h0 : appLog [Event.app_info header] = [header] := rfl
  have h1 : appLog [Event.debug_info "[Evaluator] finished measurements"] = [] := rfl
  rw [hme, appLog_append, appLog_append, appLog_append, appLog_append, h0, h1]
  simp only [List.map_append, view_methodEvents, List.map_cons, List.map_nil, lineView_header,
    List.append_nil, reference, methods, List.flatMap_cons, List.flatMap_nil, Method.label,
    List.cons_append, List.nil_append, List.append_assoc]

theorem process_view (ev : Evaluator) (polls : List GlobalState) (cache : Cache) (clock : Nat)
    (hfin : (ev.process h polls (Machine.init cache clock)).status = .finished) :
    (appLog (ev.process h polls (Machine.init cache clock)).machine.trace).map lineView
      = (true, none) :: (reference ev.conf_.count ev.conf_.sets).map Key.view := by
  have hd : waitDone ev.conf_.start_immediately polls = true := by
    rw [Evaluator.process_status] at hfin
    cases hw : waitDone ev.conf_.start_immediately polls with
    | true => rfl
    | false => rw [hw] at hfin; exact Status.noConfusion hfin
  have := ev.process_emits Event.view h polls (fun k => blindLines_view k)
    (Machine.init cache clock)
  simp only [filterMap_view] at this
  rw [this]
  simp [Machine.init, appLog, Evaluator.processEvents, hd]
  have h1 := appLog_setupEvents h ev
  have h2 := appLog_waitEvents ev.conf_.start_immediately polls
  have h3 := view_measurementEvents h ev
  simp only [appLog] at h1 h2 h3
  simp [List.filterMap_append, h1, h2, h3]

end Log

section Claims

theorem trace_of_emits {f : Machine → Machine} {E : List Event}
    (hf : Emits Machine.trace some f E) (m : Machine) : (f m).trace = m.trace ++ E := by
  simpa using hf m

/-- C6: in the cache model where `flush` removes the address from the resident set,
`access_read` inserts it and `prefetch` may or may not insert it (whatever the host
decides), the address is not resident after `flush_flush(addr)`, after
`flush_prefetch(addr)` and after `flush_reload(addr)`, for every host, every address
and every initial machine state; so its state afterwards does not depend on the state
before. -/
theorem channel_access_evicts (h : Host) (addr : Address) (m : Machine) :
    (channel_access.flush_flush h addr m).2.cache addr = false
    ∧ (channel_access.flush_prefetch h addr m).2.cache addr = false
    ∧ (channel_access.flush_reload h addr m).2.cache addr = false := by
  refine ⟨?_, ?_, ?_⟩
  · cases hx : h.x86_64 <;>
      simp [channel_access.flush_flush, hx, timeit, Machine.emit, Event.effect]
  · cases hx : h.x86_64 <;>
      simp [channel_access.flush_prefetch, hx, timeit, Machine.emit, Event.effect]
  · cases hx : h.x86_64 <;>
      simp [channel_access.flush_reload, hx, timeit, Machine.emit, Event.effect]

/-- C7: each channel operation times only its first action and returns that duration.
`flush_flush(addr)` performs one flush inside the timed window and nothing else;
`flush_prefetch(addr)` performs one prefetch inside the window and one flush after it;
`flush_reload(addr)` performs one read inside the window and one flush after it.  The
value returned is the elapsed time of the timed action alone (as a `std::uint64_t`), and
it is the value the raw operation (`raw::flush`, `raw::prefetch`, `raw::reload`) returns
on the same state. -/
theorem channel_access_times_first_action (h : Host) (addr : Address) (m : Machine) :
    ((channel_access.flush_flush h addr m).2.trace
        = m.trace ++ [.tic (h.strategy .MemoryFencedSerialisingFlushTSC), .flush addr,
            .toc (h.strategy .MemoryFencedSerialisingFlushTSC)]
      ∧ (channel_access.flush_flush h addr m).1 = h.cost (.flush addr) m.cache % 2 ^ 64
      ∧ (channel_access.flush_flush h addr m).1 = (raw.flush h addr m).1)
    ∧ ((channel_access.flush_prefetch h addr m).2.trace
        = m.trace ++ [.tic (h.strategy .MemoryFencedPrefetchTSC), .prefetch addr,
            .toc (h.strategy .MemoryFencedPrefetchTSC), .flush addr]
      ∧ (channel_access.flush_prefetch h addr m).1 = h.cost (.prefetch addr) m.cache % 2 ^ 64
      ∧ (channel_access.flush_prefetch h addr m).1 = (raw.prefetch h addr m).1)
    ∧ ((channel_access.flush_reload h addr m).2.trace
        = m.trace ++ [.tic (h.strategy .MemoryFencedTSC), .access_read addr,
            .toc (h.strategy .MemoryFencedTSC), .flush addr]
      ∧ (channel_access.flush_reload h addr m).1 = h.cost (.access_read addr) m.cache % 2 ^ 64
      ∧ (channel_access.flush_reload h addr m).1 = (raw.reload h addr m).1) := by
  refine ⟨⟨?_, ?_, ?_⟩, ⟨?_, ?_, ?_⟩, ⟨?_, ?_, ?_⟩⟩ <;> cases hx : h.x86_64 <;>
    simp [channel_access.flush_flush, channel_access.flush_prefetch,
      channel_access.flush_reload, raw.flush, raw.prefetch, raw.reload, hx, timeit,
      Machine.emit, Event.effect, Host.strategy, return_t_mod]

/-- C8: for every list of addresses, bulk `util::reload` reads each address 4 times when
not forceful and, when forceful, 4 times, yields once, and reads it 4 more times; bulk
`util::flush` flushes each address once (and then yields) when forceful, and otherwise
flushes it 3 times with a yield after every flush, hence one between consecutive
attempts.  The addresses are processed in the order of the list, and nothing else is
done. -/
theorem util_bulk_actions (h : Host) (addresses : List Address) (m : Machine) :
    (util.reload_each h false addresses m).trace
        = m.trace ++ addresses.flatMap (fun a => List.replicate 4 (Event.access_read a))
    ∧ (util.reload_each h true addresses m).trace
        = m.trace ++ addresses.flatMap (fun a =>
            List.replicate 4 (Event.access_read a) ++ [Event.yield]
              ++ List.replicate 4 (Event.access_read a))
    ∧ (util.flush_each h true addresses m).trace
        = m.trace ++ addresses.flatMap (fun a => [Event.flush a, Event.yield])
    ∧ (util.flush_each h false addresses m).trace
        = m.trace ++ addresses.flatMap (fun a =>
            [Event.flush a, Event.yield, Event.flush a, Event.yield, Event.flush a,
              Event.yield]) := by
  refine ⟨?_, ?_, ?_, ?_⟩
  · simpa [reloadEvents] using trace_of_emits (util.reload_each_emits some h false addresses) m
  · simpa [reloadEvents] using trace_of_emits (util.reload_each_emits some h true addresses) m
  · simpa [flushEvents] using trace_of_emits (util.flush_each_emits some h true addresses) m
  · simpa [flushEvents] using trace_of_emits (util.flush_each_emits some h false addresses) m

/-- C3: for every settings value with `sets > 64` the constructor throws (a
`std::logic_error`, the configuration error of the program); `process` is not run, the
machine is left as it was, and the application log of the run is empty: no header line
and no record. -/
theorem constructor_rejects_large_sets (h : Host) (conf : settings)
    (polls : List GlobalState) (cache : Cache) (clock : Nat) (hsets : conf.sets > 64) :
    Evaluator.new conf = .error (.logic_error "conf->sets must be less than or equal 64")
    ∧ (main h conf polls (Machine.init cache clock)).status
        = .threw (.logic_error "conf->sets must be less than or equal 64")
    ∧ (main h conf polls (Machine.init cache clock)).machine.trace = []
    ∧ appLog (main h conf polls (Machine.init cache clock)).machine.trace = [] := by
  have hnew : Evaluator.new conf
      = .error (.logic_error "conf->sets must be less than or equal 64") := by
    simp [Evaluator.new, hsets]
  refine ⟨hnew, ?_, ?_, ?_⟩ <;> simp [main, hnew, Machine.init, appLog]

/-- The instance of C3 the specification names: `sets = 65`. -/
theorem constructor_rejects_large_sets_witness :
    Evaluator.new { sets := 65 }
      = .error (.logic_error "conf->sets must be less than or equal 64")
    ∧ (main Host.simulated { sets := 65 } [.Started]
        (Machine.init (fun _ => false) 0)).status
        = .threw (.logic_error "conf->sets must be less than or equal 64")
    ∧ (main Host.simulated { sets := 65 } [.Started]
        (Machine.init (fun _ => false) 0)).machine.trace = []
    ∧ appLog (main Host.simulated { sets := 65 } [.Started]
        (Machine.init (fun _ => false) 0)).machine.trace = [] :=
  constructor_rejects_large_sets Host.simulated { sets := 65 }
    [.Started] (fun _ => false) 0 (by decide)

/-- C4, as stated, fails: with `count = 0` (and the default `sets = 16`) the
constructor succeeds, and the Evaluator it returns has an iteration count that is not
positive. -/
theorem constructor_accepts_zero_count :
    ∃ ev, Evaluator.new { count := 0 } = .ok ev ∧ ¬ (1 ≤ ev.conf_.count) :=
  ⟨Evaluator.build { count := 0 }, rfl, by decide⟩

/-- C4, amended: the constructor validates the upper bound of `sets` and nothing else.
For settings with `1 ≤ sets`, construction succeeds, keeping the settings as given,
exactly when `sets ≤ 64`, whatever the iteration count is. -/
theorem constructor_validates_upper_bound (conf : settings) (hlow : 1 ≤ conf.sets) :
    (∃ ev, Evaluator.new conf = .ok ev ∧ ev.conf_ = conf) ↔ conf.sets ≤ 64 := by
  constructor
  · rintro ⟨ev, hev, -⟩
    by_contra hgt
    have hgt' : conf.sets > 64 := by omega
    simp [Evaluator.new, hgt'] at hev
  · intro hle
    have hle' : ¬ conf.sets > 64 := by omega
    exact ⟨Evaluator.build conf, by simp [Evaluator.new, hle'], rfl⟩

/-- An instance of the amended C4: `sets = 64` with `count = 0` is accepted. -/
theorem constructor_validates_upper_bound_witness :
    (∃ ev, Evaluator.new { count := 0, sets := 64 } = .ok ev
        ∧ ev.conf_ = { count := 0, sets := 64 })
      ↔ (64 : Nat) ≤ 64 :=
  constructor_validates_upper_bound { count := 0, sets := 64 } (by decide)

theorem recordKey_eq_view (line : String) :
    recordKey line = (lineView line).2.map Prod.snd := by
  simp only [recordKey, lineView, parseKey]
  cases parseRecord line <;> rfl

theorem process_log_shape (h : Host) (ev : Evaluator) (polls : List GlobalState)
    (cache : Cache) (clock : Nat)
    (hfin : (ev.process h polls (Machine.init cache clock)).status = .finished) :
    ∃ records, appLog (ev.process h polls (Machine.init cache clock)).machine.trace
        = header :: records
      ∧ records.map lineView = (reference ev.conf_.count ev.conf_.sets).map Key.view := by
  have hv := process_view h ev polls cache clock hfin
  cases hl : appLog (ev.process h polls (Machine.init cache clock)).machine.trace with
  | nil => rw [hl] at hv; exact List.noConfusion hv
  | cons l0 records =>
    rw [hl, List.map_cons, List.cons.injEq] at hv
    have h0 : l0 = header := by
      have := congrArg Prod.fst hv.1
      simpa [lineView] using this
    exact ⟨records, by rw [h0], hv.2⟩

theorem build_of_new {conf : settings} {ev : Evaluator} (hnew : Evaluator.new conf = .ok ev) :
    ev = Evaluator.build conf ∧ conf.sets ≤ 64 := by
  unfold Evaluator.new at hnew
  by_cases hgt : conf.sets > 64
  · simp [hgt] at hnew
  · simp only [hgt, if_false, Except.ok.injEq] at hnew
    exact ⟨hnew.symm, by omega⟩

theorem conf_of_new {conf : settings} {ev : Evaluator} (hnew : Evaluator.new conf = .ok ev) :
    ev.conf_ = conf := by
  rw [(build_of_new hnew).1]; rfl

/-- C1: for every count and every `sets ≤ 64` (every Evaluator the constructor
returns), a run of `process` that gets past its wait loop writes the header first, and
the keys (method, category, class, size, index) of the lines after it are exactly the
reference sequence: for each method in the order flush_flush, flush_prefetch,
flush_reload, first (raw, hit, 0, i) for i = 0..count-1, then for s = 1..sets ascending
(access, hit, s, i) for i = 0..count-1, then (raw, miss, 0, i), then for s = 1..sets
ascending (access, miss, s, i).  With count = 2 and sets = 2 the reference of one method
is raw-hit x2, (size 1 hit) x2, (size 2 hit) x2, raw-miss x2, (size 1 miss) x2,
(size 2 miss) x2. -/
theorem process_key_sequence (h : Host) (conf : settings) (ev : Evaluator)
    (polls : List GlobalState) (cache : Cache) (clock : Nat)
    (hnew : Evaluator.new conf = .ok ev)
    (hfin : (ev.process h polls (Machine.init cache clock)).status = .finished) :
    (appLog (ev.process h polls (Machine.init cache clock)).machine.trace).head? = some header
    ∧ (appLog (ev.process h polls (Machine.init cache clock)).machine.trace).tail.map recordKey
        = (reference conf.count conf.sets).map some
    ∧ ∀ method, referenceMethod method 2 2
        = [⟨method, .raw, .hit, 0, 0⟩, ⟨method, .raw, .hit, 0, 1⟩,
           ⟨method, .access, .hit, 1, 0⟩, ⟨method, .access, .hit, 1, 1⟩,
           ⟨method, .access, .hit, 2, 0⟩, ⟨method, .access, .hit, 2, 1⟩,
           ⟨method, .raw, .miss, 0, 0⟩, ⟨method, .raw, .miss, 0, 1⟩,
           ⟨method, .access, .miss, 1, 0⟩, ⟨method, .access, .miss, 1, 1⟩,
           ⟨method, .access, .miss, 2, 0⟩, ⟨method, .access, .miss, 2, 1⟩] := by
  obtain ⟨records, hlog, hrec⟩ := process_log_shape h ev polls cache clock hfin
  rw [conf_of_new hnew] at hrec
  refine ⟨by rw [hlog]; rfl, ?_, fun method => rfl⟩
  rw [hlog, List.tail_cons]
  have hk : recordKey = (fun v : Bool × Option (Nat × Key) => v.2.map Prod.snd) ∘ lineView :=
    funext recordKey_eq_view
  rw [hk, ← List.map_map, hrec, List.map_map]
  rfl

/-- The instance of C1 with count = 2 and sets = 2, started immediately. -/
theorem process_key_sequence_witness :
    (appLog ((Evaluator.build { count := 2, sets := 2 }).process
        Host.simulated [.NotStarted]
        (Machine.init (fun _ => false) 0)).machine.trace).head? = some header
    ∧ (appLog ((Evaluator.build { count := 2, sets := 2 }).process
        Host.simulated [.NotStarted]
        (Machine.init (fun _ => false) 0)).machine.trace).tail.map recordKey
        = (reference 2 2).map some
    ∧ ∀ method, referenceMethod method 2 2
        = [⟨method, .raw, .hit, 0, 0⟩, ⟨method, .raw, .hit, 0, 1⟩,
           ⟨method, .access, .hit, 1, 0⟩, ⟨method, .access, .hit, 1, 1⟩,
           ⟨method, .access, .hit, 2, 0⟩, ⟨method, .access, .hit, 2, 1⟩,
           ⟨method, .raw, .miss, 0, 0⟩, ⟨method, .raw, .miss, 0, 1⟩,
           ⟨method, .access, .miss, 1, 0⟩, ⟨method, .access, .miss, 1, 1⟩,
           ⟨method, .access, .miss, 2, 0⟩, ⟨method, .access, .miss, 2, 1⟩] :=
  process_key_sequence Host.simulated { count := 2, sets := 2 }
    (Evaluator.build { count := 2, sets := 2 }) [.NotStarted] (fun _ => false) 0 rfl rfl

theorem isRecordOf_eq_view (c : Category) (k : HitMiss) (size : Nat) :
    isRecordOf c k size
      = (fun v : Bool × Option (Nat × Key) =>
          match v.2.map Prod.snd with
          | some key => decide (key.category = c ∧ key.cls = k ∧ key.size = size)
          | none => false) ∘ lineView := by
  funext line
  simp only [isRecordOf, recordKey_eq_view, Function.comp]

theorem isRecord_eq_view :
    isRecord = (fun v : Bool × Option (Nat × Key) => v.2.isSome) ∘ lineView := by
  funext line
  simp only [isRecord, lineView, parseKey, Function.comp]
  cases parseRecord line <;> rfl

theorem length_keyBlock (method : String) (c : Category) (k : HitMiss) (size count : Nat) :
    (keyBlock method c k size count).length = count := by
  simp [keyBlock]

theorem length_sweep (method : String) (c : Category) (k : HitMiss) (count sets : Nat) :
    ((List.range' 1 sets).flatMap (fun s => keyBlock method c k s count)).length
      = sets * count := by
  induction sets with
  | zero => simp
  | succ n ih =>
    rw [List.range'_concat, List.flatMap_append, List.length_append, ih]
    simp [length_keyBlock, Nat.succ_mul]

theorem length_referenceMethod (method : String) (count sets : Nat) :
    (referenceMethod method count sets).length = count * (2 + 2 * sets) := by
  simp only [referenceMethod, List.length_append, length_keyBlock, length_sweep]
  ring

theorem length_reference (count sets : Nat) :
    (reference count sets).length = 3 * count * (2 + 2 * sets) := by
  simp only [reference, methods, List.flatMap_cons, List.flatMap_nil, List.length_append,
    length_referenceMethod, List.length_nil]
  ring

theorem countP_keyBlock (c c' : Category) (k k' : HitMiss) (size size' count : Nat)
    (method : String) :
    (keyBlock method c' k' size' count).countP
        (fun key => decide (key.category = c ∧ key.cls = k ∧ key.size = size))
      = if c' = c ∧ k' = k ∧ size' = size then count else 0 := by
  unfold keyBlock
  rw [List.countP_map]
  by_cases hc : c' = c ∧ k' = k ∧ size' = size
  · rw [if_pos hc, List.countP_eq_length.mpr (by intro i _; simpa using hc)]
    simp
  · rw [if_neg hc, List.countP_eq_zero.mpr (by intro i _; simpa using hc)]

theorem countP_sweep (c c' : Category) (k k' : HitMiss) (size count sets : Nat)
    (method : String) :
    ((List.range' 1 sets).flatMap (fun s => keyBlock method c' k' s count)).countP
        (fun key => decide (key.category = c ∧ key.cls = k ∧ key.size = size))
      = if c' = c ∧ k' = k ∧ 1 ≤ size ∧ size ≤ sets then count else 0 := by
  induction sets with
  | zero =>
    have : ¬ (c' = c ∧ k' = k ∧ 1 ≤ size ∧ size ≤ 0) := by omega
    rw [if_neg this]
    simp
  | succ n ih =>
    rw [List.range'_concat, List.flatMap_append, List.countP_append, ih]
    simp only [List.flatMap_cons, List.flatMap_nil, List.append_nil, countP_keyBlock, Nat.one_mul]
    by_cases hc : c' = c
    · by_cases hk : k' = k
      · simp only [hc, hk, true_and]
        split_ifs <;> omega
      · simp [hk]
    · simp [hc]

theorem countP_referenceMethod (k : HitMiss) (size count sets : Nat) (method : String)
    (h1 : 1 ≤ size) (h2 : size ≤ sets) :
    (referenceMethod method count sets).countP
        (fun key => decide (key.category = .access ∧ key.cls = k ∧ key.size = size))
      = count := by
  simp only [referenceMethod, List.countP_append, countP_keyBlock, countP_sweep]
  cases k <;> simp [h1, h2]

theorem countP_of_view {log : List String} {keys : List Key}
    (hv : log.map lineView = keys.map Key.view) (c : Category) (k : HitMiss) (size : Nat) :
    log.countP (isRecordOf c k size)
      = keys.countP (fun key => decide (key.category = c ∧ key.cls = k ∧ key.size = size)) := by
  rw [isRecordOf_eq_view, ← List.countP_map, hv, List.countP_map]
  rfl

theorem countP_isRecord_of_view {log : List String} {keys : List Key}
    (hv : log.map lineView = keys.map Key.view) :
    log.countP isRecord = keys.length := by
  rw [isRecord_eq_view, ← List.countP_map, hv, List.countP_map,
    List.countP_eq_length.mpr (by intro key _; rfl)]

theorem length_of_view {log : List String} {keys : List Key}
    (hv : log.map lineView = keys.map Key.view) : log.length = keys.length := by
  simpa using congrArg List.length hv

/-- C2: for every count and every `sets ≤ 64`, one call of `measure` (for any of the
three methods, on a fresh log) writes, for every `s` in `[1, sets]`, exactly `count`
records with (access, hit, s) and exactly `count` records with (access, miss, s), and
exactly `count * (2 + 2 * sets)` lines in total, all of them records; a whole run of
`process` that gets past its wait loop writes exactly `3 * count * (2 + 2 * sets)` lines
after the header line, all of them records. -/
theorem record_counts (h : Host) (conf : settings) (ev : Evaluator) (cache : Cache)
    (clock : Nat) (hnew : Evaluator.new conf = .ok ev) :
    (∀ (k : Method) (st : Option Holders),
      (∀ s, 1 ≤ s → s ≤ conf.sets →
        (appLog (ev.measure h (k.raw h) (k.op h) k.label false
            (Machine.init cache clock, st)).1.trace).countP (isRecordOf .access .hit s)
          = conf.count
        ∧ (appLog (ev.measure h (k.raw h) (k.op h) k.label false
            (Machine.init cache clock, st)).1.trace).countP (isRecordOf .access .miss s)
          = conf.count)
      ∧ (appLog (ev.measure h (k.raw h) (k.op h) k.label false
            (Machine.init cache clock, st)).1.trace).length = conf.count * (2 + 2 * conf.sets)
      ∧ (appLog (ev.measure h (k.raw h) (k.op h) k.label false
            (Machine.init cache clock, st)).1.trace).countP isRecord
          = conf.count * (2 + 2 * conf.sets))
    ∧ (∀ polls : List GlobalState,
        (ev.process h polls (Machine.init cache clock)).status = .finished →
        (appLog (ev.process h polls (Machine.init cache clock)).machine.trace).head?
            = some header
        ∧ (appLog (ev.process h polls (Machine.init cache clock)).machine.trace).tail.length
            = 3 * conf.count * (2 + 2 * conf.sets)
        ∧ (appLog (ev.process h polls
              (Machine.init cache clock)).machine.trace).tail.countP isRecord
            = 3 * conf.count * (2 + 2 * conf.sets)) := by
  have hconf := conf_of_new hnew
  refine ⟨fun k st => ?_, fun polls hfin => ?_⟩
  · have hv := measure_view h ev k (Machine.init cache clock, st)
    rw [hconf] at hv
    have hv' : (appLog (ev.measure h (k.raw h) (k.op h) k.label false
        (Machine.init cache clock, st)).1.trace).map lineView
        = (referenceMethod k.label conf.count conf.sets).map Key.view := by
      simpa [Machine.init, appLog] using hv
    refine ⟨fun s h1 h2 => ⟨?_, ?_⟩, ?_, ?_⟩
    · rw [countP_of_view hv', countP_referenceMethod _ _ _ _ _ h1 h2]
    · rw [countP_of_view hv', countP_referenceMethod _ _ _ _ _ h1 h2]
    · rw [length_of_view hv', length_referenceMethod]
    · rw [countP_isRecord_of_view hv', length_referenceMethod]
  · obtain ⟨records, hlog, hrec⟩ := process_log_shape h ev polls cache clock hfin
    rw [hconf] at hrec
    rw [hlog]
    refine ⟨rfl, ?_, ?_⟩
    · rw [List.tail_cons, length_of_view hrec, length_reference]
    · rw [List.tail_cons, countP_isRecord_of_view hrec, length_reference]

/-- An instance of C2: the flush_reload call of `measure` at size 2 and the whole run,
with count = 3 and sets = 2, started immediately. -/
theorem record_counts_witness :
    ((appLog ((Evaluator.build { count := 3, sets := 2 }).measure Host.simulated
        (Method.raw Host.simulated .flush_reload) (Method.op Host.simulated .flush_reload)
        Method.flush_reload.label false
        (Machine.init (fun _ => false) 0, none)).1.trace).countP (isRecordOf .access .hit 2) = 3
      ∧ (appLog ((Evaluator.build { count := 3, sets := 2 }).measure Host.simulated
        (Method.raw Host.simulated .flush_reload) (Method.op Host.simulated .flush_reload)
        Method.flush_reload.label false
        (Machine.init (fun _ => false) 0, none)).1.trace).countP (isRecordOf .access .miss 2)
          = 3)
    ∧ (appLog ((Evaluator.build { count := 3, sets := 2 }).measure Host.simulated
        (Method.raw Host.simulated .flush_reload) (Method.op Host.simulated .flush_reload)
        Method.flush_reload.label false
        (Machine.init (fun _ => false) 0, none)).1.trace).length = 3 * (2 + 2 * 2)
    ∧ (appLog ((Evaluator.build { count := 3, sets := 2 }).process Host.simulated [.Started]
        (Machine.init (fun _ => false) 0)).machine.trace).tail.length = 3 * 3 * (2 + 2 * 2) :=
  ⟨((record_counts Host.simulated { count := 3, sets := 2 }
      (Evaluator.build { count := 3, sets := 2 }) (fun _ => false) 0 rfl).1
      .flush_reload none).1 2 (by decide) (by decide),
   ((record_counts Host.simulated { count := 3, sets := 2 }
      (Evaluator.build { count := 3, sets := 2 }) (fun _ => false) 0 rfl).1
      .flush_reload none).2.1,
   ((record_counts Host.simulated { count := 3, sets := 2 }
      (Evaluator.build { count := 3, sets := 2 }) (fun _ => false) 0 rfl).2
      [.Started] rfl).2.1⟩

theorem fields_of_parseRecord {line : String} {r : Record} (hr : parseRecord line = some r) :
    (splitComma line.data).length = 7 := by
  unfold parseRecord at hr
  split at hr
  · next hs => rw [hs]; rfl
  · exact Option.noConfusion hr

theorem mem_keyBlock {key : Key} {method : String} {c : Category} {k : HitMiss}
    {size count : Nat} (hk : key ∈ keyBlock method c k size count) :
    key.method = method ∧ key.category = c ∧ key.cls = k ∧ key.size = size
      ∧ key.index < count := by
  simp only [keyBlock, List.mem_map, List.mem_range] at hk
  obtain ⟨i, hi, rfl⟩ := hk
  exact ⟨rfl, rfl, rfl, rfl, hi⟩

theorem mem_referenceMethod {key : Key} {method : String} {count sets : Nat}
    (hk : key ∈ referenceMethod method count sets) :
    key.method = method
      ∧ ((key.category = .raw ∧ key.size = 0)
          ∨ (key.category = .access ∧ 1 ≤ key.size ∧ key.size ≤ sets))
      ∧ key.index < count := by
  simp only [referenceMethod, List.mem_append, List.mem_flatMap, List.mem_range'_1] at hk
  rcases hk with ((hk | ⟨s, hs, hk⟩) | hk) | ⟨s, hs, hk⟩
  · have := mem_keyBlock hk
    exact ⟨this.1, Or.inl ⟨this.2.1, this.2.2.2.1⟩, this.2.2.2.2⟩
  · have := mem_keyBlock hk
    exact ⟨this.1, Or.inr ⟨this.2.1, by omega, by omega⟩, this.2.2.2.2⟩
  · have := mem_keyBlock hk
    exact ⟨this.1, Or.inl ⟨this.2.1, this.2.2.2.1⟩, this.2.2.2.2⟩
  · have := mem_keyBlock hk
    exact ⟨this.1, Or.inr ⟨this.2.1, by omega, by omega⟩, this.2.2.2.2⟩

theorem mem_reference {key : Key} {count sets : Nat} (hk : key ∈ reference count sets) :
    key.method ∈ methods
      ∧ ((key.category = .raw ∧ key.size = 0)
          ∨ (key.category = .access ∧ 1 ≤ key.size ∧ key.size ≤ sets))
      ∧ key.index < count := by
  simp only [reference, List.mem_flatMap] at hk
  obtain ⟨method, hm, hk⟩ := hk
  have := mem_referenceMethod hk
  exact ⟨this.1 ▸ hm, this.2⟩

theorem record_of_view {line : String} {key : Key} (hv : lineView line = key.view) :
    line ≠ header ∧ ∃ r, parseRecord line = some r ∧ r.placeholder = 0 ∧ r.key = key := by
  simp only [lineView, Key.view, Prod.mk.injEq, decide_eq_false_iff_not, parseKey] at hv
  refine ⟨hv.1, ?_⟩
  cases hr : parseRecord line with
  | none => rw [hr] at hv; exact Option.noConfusion hv.2
  | some r =>
    rw [hr] at hv
    have := hv.2
    simp only [Option.map_some', Option.some.injEq, Prod.mk.injEq] at this
    exact ⟨r, rfl, this.1, this.2⟩

/-- C9: the measurement log of a run of `process` that gets past its wait loop starts
with the header line `placeholder,method,category,class,sets,index,duration`, which
occurs nowhere else; every following line consists of exactly 7 comma-separated
fields, read in the order of the header's columns, with placeholder 0, method one of
flush_flush, flush_prefetch, flush_reload, category raw or access, class hit or miss,
sets = 0 exactly for the raw category and in `[1, sets]` for the access category, index
in `[0, count)`, and a number as duration. -/
theorem process_log_format (h : Host) (conf : settings) (ev : Evaluator)
    (polls : List GlobalState) (cache : Cache) (clock : Nat)
    (hnew : Evaluator.new conf = .ok ev)
    (hfin : (ev.process h polls (Machine.init cache clock)).status = .finished) :
    ∃ records,
      appLog (ev.process h polls (Machine.init cache clock)).machine.trace = header :: records
      ∧ splitComma header.data
          = ["placeholder".data, "method".data, "category".data, "class".data, "sets".data,
              "index".data, "duration".data]
      ∧ ∀ line ∈ records,
          line ≠ header
          ∧ (splitComma line.data).length = 7
          ∧ ∃ r, parseRecord line = some r
              ∧ r.placeholder = 0
              ∧ r.key.method ∈ ["flush_flush", "flush_prefetch", "flush_reload"]
              ∧ (r.key.category = .raw ↔ r.key.size = 0)
              ∧ (r.key.category = .access → 1 ≤ r.key.size ∧ r.key.size ≤ conf.sets)
              ∧ r.key.index < conf.count := by
  obtain ⟨records, hlog, hrec⟩ := process_log_shape h ev polls cache clock hfin
  rw [conf_of_new hnew] at hrec
  refine ⟨records, hlog, by decide, fun line hline => ?_⟩
  have hmem : lineView line ∈ (reference conf.count conf.sets).map Key.view := by
    rw [← hrec]; exact List.mem_map_of_mem _ hline
  obtain ⟨key, hkey, hview⟩ := List.mem_map.mp hmem
  obtain ⟨hne, r, hr, hp, hk⟩ := record_of_view hview.symm
  obtain ⟨hm, hcat, hidx⟩ := mem_reference hkey
  refine ⟨hne, fields_of_parseRecord hr, r, hr, hp, by rw [hk]; exact hm, ?_, ?_,
    by rw [hk]; exact hidx⟩
  · rw [hk]
    rcases hcat with ⟨hc, hs⟩ | ⟨hc, h1, _⟩
    · simp [hc, hs]
    · constructor
      · intro hraw; rw [hc] at hraw; exact Category.noConfusion hraw
      · intro h0; omega
  · rw [hk]
    rcases hcat with ⟨hc, _⟩ | ⟨_, h1, h2⟩
    · intro hacc; rw [hc] at hacc; exact Category.noConfusion hacc
    · intro _; exact ⟨h1, h2⟩

/-- An instance of C9: count = 2, sets = 3, started by the barrier at the second
poll. -/
theorem process_log_format_witness :
    ∃ records,
      appLog ((Evaluator.build { count := 2, sets := 3, start_immediately := false }).process
        Host.simulated [.NotStarted, .Started] (Machine.init (fun _ => false) 0)).machine.trace
        = header :: records
      ∧ splitComma header.data
          = ["placeholder".data, "method".data, "category".data, "class".data, "sets".data,
              "index".data, "duration".data]
      ∧ ∀ line ∈ records,
          line ≠ header
          ∧ (splitComma line.data).length = 7
          ∧ ∃ r, parseRecord line = some r
              ∧ r.placeholder = 0
              ∧ r.key.method ∈ ["flush_flush", "flush_prefetch", "flush_reload"]
              ∧ (r.key.category = .raw ↔ r.key.size = 0)
              ∧ (r.key.category = .access → 1 ≤ r.key.size ∧ r.key.size ≤ 3)
              ∧ r.key.index < 2 :=
  process_log_format Host.simulated { count := 2, sets := 3, start_immediately := false }
    (Evaluator.build { count := 2, sets := 3, start_immediately := false })
    [.NotStarted, .Started] (fun _ => false) 0 rfl rfl

theorem build_ptr_arr (conf : settings) :
    (Evaluator.build conf).ptr_arr = (List.range 64).map Address.arr := by
  rfl

theorem build_getD (conf : settings) (j : Nat) (hj : j < 64) :
    (Evaluator.build conf).ptr_arr.getD j Address.unset = Address.arr j := by
  rw [build_ptr_arr, List.getD_eq_getElem _ _ (by simpa using hj)]
  simp

theorem blindLines_memory (method : String) :
    BlindLines (Option.guard fun e : Event => e.isMemory = true) method :=
  ⟨fun _ _ => rfl, fun _ _ _ => rfl, fun _ _ => rfl, fun _ _ _ => rfl⟩

theorem filter_timedEvents (s : Strategy) (E : List Event) :
    (timedEvents s E).filter Event.isMemory = E.filter Event.isMemory := by
  simp [timedEvents, List.filter_append, List.filter_cons, Event.isMemory]

theorem filter_lineEvents (count : Nat) (line : String → String → String) :
    (lineEvents count line).filter Event.isMemory = [] := by
  simp [lineEvents, List.filter_eq_nil_iff, Event.isMemory]

theorem filter_first (k : Method) (a : Address) :
    [k.first a].filter Event.isMemory = [k.first a] := by
  cases k <;> rfl

theorem filter_opEvents (h : Host) (k : Method) (a : Address) :
    (k.opEvents h a).filter Event.isMemory = k.first a :: k.cleanup a := by
  rw [Method.opEvents, List.filter_append, filter_timedEvents, filter_first]
  cases k <;> rfl

theorem filter_methodEvents (h : Host) (conf : settings) (k : Method) (hsets : conf.sets ≤ 64) :
    ((Evaluator.build conf).methodEvents h k).filter Event.isMemory
      = memoryReference k conf.count conf.sets := by
  have hcs : ∀ cs, cs ∈ List.range' 1 conf.sets →
      ((List.range cs).flatMap fun j =>
          (k.opEvents h ((Evaluator.build conf).ptr_arr.getD j Address.unset)).filter
            Event.isMemory)
        = (List.range cs).flatMap (fun j => k.first (.arr j) :: k.cleanup (.arr j)) := by
    intro cs hcs
    have hcs' := List.mem_range'_1.mp hcs
    refine List.flatMap_congr (fun j hj => ?_)
    have hj' := List.mem_range.mp hj
    rw [build_getD conf j (by omega), filter_opEvents]
  have hsweep : ∀ (P : List Event),
      ((List.range' 1 conf.sets).flatMap fun cs =>
        (List.range conf.count).flatMap fun _ =>
            P ++ (List.range cs).flatMap fun j =>
              (k.opEvents h ((Evaluator.build conf).ptr_arr.getD j Address.unset)).filter
                Event.isMemory)
      = (List.range' 1 conf.sets).flatMap fun cs =>
        (List.range conf.count).flatMap fun _ =>
            P ++ (List.range cs).flatMap (fun j => k.first (.arr j) :: k.cleanup (.arr j)) := by
    intro P
    refine List.flatMap_congr (fun cs hcs' => ?_)
    rw [hcs cs hcs']
  have hconf : (Evaluator.build conf).conf_ = conf := rfl
  have hptr : (Evaluator.build conf).ptr = Address.var := rfl
  have hrel : ((Evaluator.build conf).ptr_arr.flatMap fun a =>
      (reloadEvents false a).filter Event.isMemory)
      = (List.range 64).flatMap (fun i => List.replicate 4 (Event.access_read (.arr i))) := by
    rw [build_ptr_arr, List.flatMap_def, List.map_map, ← List.flatMap_def]
    rfl
  have hfl : ((Evaluator.build conf).ptr_arr.flatMap fun a =>
      (flushEvents false a).filter Event.isMemory)
      = (List.range 64).flatMap (fun i => List.replicate 3 (Event.flush (.arr i))) := by
    rw [build_ptr_arr, List.flatMap_def, List.map_map, ← List.flatMap_def]
    rfl
  have hflt : ((Evaluator.build conf).ptr_arr.flatMap fun a =>
      (flushEvents true a).filter Event.isMemory)
      = (List.range 64).map (fun i => Event.flush (.arr i)) := by
    rw [build_ptr_arr]
    induction List.range 64 with
    | nil => rfl
    | cons i l ih =>
      rw [List.map_cons, List.flatMap_cons, ih]
      rfl
  simp only [Evaluator.methodEvents, Evaluator.measureEvents, Evaluator.trialEvents,
    memoryReference, hconf, hptr, List.filter_append, List.filter_flatMap, filter_timedEvents,
    Method.rawEvents, filter_first, filter_lineEvents, List.append_nil, Nat.add_sub_cancel]
  rw [hsweep, hsweep, hrel, hfl, hflt]
  rfl

theorem measure_memory (h : Host) (conf : settings) (k : Method) (hsets : conf.sets ≤ 64)
    (s : Machine × Option Holders) :
    ((Evaluator.build conf).measure h (k.raw h) (k.op h) k.label false s).1.trace.filter
        Event.isMemory
      = s.1.trace.filter Event.isMemory ++ memoryReference k conf.count conf.sets := by
  have := (Evaluator.build conf).method_emits (Option.guard fun e : Event => e.isMemory = true)
    h k (blindLines_memory k.label) s
  simp only [List.filterMap_eq_filter] at this
  rw [this, filter_methodEvents h conf k hsets]

set_option maxRecDepth 100000 in
/-- C5, as stated, fails: in a call of `measure` for flush_flush with count = 1 and
sets = 1, where every sweep trial has size 1 and the method itself never reads, the
table entry 63 is read 4 times (by the preparation of the one hit-sweep trial) and
flushed 4 times (once by the global reset, 3 times by the preparation of the one
miss-sweep trial). -/
theorem sweep_preparation_touches_inactive_entry :
    ((Evaluator.build { count := 1, sets := 1 }).measure Host.simulated
        (raw.flush Host.simulated) (channel_access.flush_flush Host.simulated) "flush_flush"
        false (Machine.init (fun _ => false) 0, none)).1.trace.count
        (Event.access_read (Address.arr 63)) = 4
    ∧ ((Evaluator.build { count := 1, sets := 1 }).measure Host.simulated
        (raw.flush Host.simulated) (channel_access.flush_flush Host.simulated) "flush_flush"
        false (Machine.init (fun _ => false) 0, none)).1.trace.count
        (Event.flush (Address.arr 63)) = 4 := by
  have hm := measure_memory Host.simulated { count := 1, sets := 1 } .flush_flush
    (by decide) (Machine.init (fun _ => false) 0, none)
  have hm' : ((Evaluator.build { count := 1, sets := 1 }).measure Host.simulated
        (raw.flush Host.simulated) (channel_access.flush_flush Host.simulated) "flush_flush"
        false (Machine.init (fun _ => false) 0, none)).1.trace.filter Event.isMemory
      = memoryReference .flush_flush 1 1 := hm
  have hr : (Event.access_read (Address.arr 63)).isMemory = true := rfl
  have hf : (Event.flush (Address.arr 63)).isMemory = true := rfl
  constructor
  · rw [← List.count_filter hr, hm']
    decide
  · rw [← List.count_filter hf, hm']
    decide

/-- C5, amended: the preparation of a sweep trial covers the whole address table,
whatever the size `s` of the trial is; only the timed channel operation is restricted
to the `s` active addresses.  The memory actions of one call of `measure` are, in this
order: per raw-hit trial 4 reads of the singleton and the raw action; per hit-sweep
trial at size `s` 4 reads of each of the 64 table entries, then the channel operation
(its action and its cleanup) on the entries `0..s-1`; the global reset, one flush of
the singleton and of each of the 64 entries; per raw-miss trial 3 flushes of the
singleton and the raw action; per miss-sweep trial at size `s` 3 flushes of each of the
64 table entries, then the channel operation on the entries `0..s-1`. -/
theorem sweep_preparation_covers_table (h : Host) (conf : settings) (ev : Evaluator)
    (k : Method) (m : Machine) (st : Option Holders)
    (hnew : Evaluator.new conf = .ok ev) :
    (ev.measure h (k.raw h) (k.op h) k.label false (m, st)).1.trace.filter Event.isMemory
      = m.trace.filter Event.isMemory
        ++ ((List.range conf.count).flatMap (fun _ =>
              List.replicate 4 (Event.access_read .var) ++ [k.first .var])
          ++ (List.range' 1 conf.sets).flatMap (fun s =>
              (List.range conf.count).flatMap (fun _ =>
                (List.range 64).flatMap (fun i =>
                    List.replicate 4 (Event.access_read (.arr i)))
                  ++ (List.range s).flatMap (fun j => k.first (.arr j) :: k.cleanup (.arr j))))
          ++ [Event.flush .var]
          ++ (List.range 64).map (fun i => Event.flush (.arr i))
          ++ (List.range conf.count).flatMap (fun _ =>
              List.replicate 3 (Event.flush .var) ++ [k.first .var])
          ++ (List.range' 1 conf.sets).flatMap (fun s =>
              (List.range conf.count).flatMap (fun _ =>
                (List.range 64).flatMap (fun i => List.replicate 3 (Event.flush (.arr i)))
                  ++ (List.range s).flatMap (fun j =>
                      k.first (.arr j) :: k.cleanup (.arr j))))) := by
  obtain ⟨hev, hsets⟩ := build_of_new hnew
  rw [hev]
  exact measure_memory h conf k hsets (m, st)

/-- An instance of the amended C5: flush_reload with count = 1 and sets = 2. -/
theorem sweep_preparation_covers_table_witness :
    ((Evaluator.build { count := 1, sets := 2 }).measure Host.simulated
        (Method.raw Host.simulated .flush_reload) (Method.op Host.simulated .flush_reload)
        Method.flush_reload.label false
        (Machine.init (fun _ => false) 0, none)).1.trace.filter Event.isMemory
      = (Machine.init (fun _ => false) 0).trace.filter Event.isMemory
        ++ ((List.range 1).flatMap (fun _ =>
              List.replicate 4 (Event.access_read .var) ++ [Method.flush_reload.first .var])
          ++ (List.range' 1 2).flatMap (fun s =>
              (List.range 1).flatMap (fun _ =>
                (List.range 64).flatMap (fun i =>
                    List.replicate 4 (Event.access_read (.arr i)))
                  ++ (List.range s).flatMap (fun j =>
                      Method.flush_reload.first (.arr j) :: Method.flush_reload.cleanup (.arr j))))
          ++ [Event.flush .var]
          ++ (List.range 64).map (fun i => Event.flush (.arr i))
          ++ (List.range 1).flatMap (fun _ =>
              List.replicate 3 (Event.flush .var) ++ [Method.flush_reload.first .var])
          ++ (List.range' 1 2).flatMap (fun s =>
              (List.range 1).flatMap (fun _ =>
                (List.range 64).flatMap (fun i => List.replicate 3 (Event.flush (.arr i)))
                  ++ (List.range s).flatMap (fun j =>
                      Method.flush_reload.first (.arr j)
                        :: Method.flush_reload.cleanup (.arr j))))) :=
  sweep_preparation_covers_table Host.simulated { count := 1, sets := 2 }
    (Evaluator.build { count := 1, sets := 2 }) .flush_reload
    (Machine.init (fun _ => false) 0) none rfl

theorem erase_injective_of_quiet {e e' : Event} (hq : e'.appLine = none)
    (he : e.erase = e'.erase) : e = e' := by
  cases e <;> cases e' <;> simp_all [Event.erase, Event.appLine]

theorem map_erase_of_quiet : ∀ (l' l : List Event), (∀ e ∈ l', e.appLine = none) →
    l.map Event.erase = l'.map Event.erase → l = l' := by
  intro l'
  induction l' with
  | nil => intro l _ hl; simpa using hl
  | cons e' l' ih =>
    intro l hq hl
    cases l with
    | nil => simp at hl
    | cons e l =>
      simp only [List.map_cons, List.cons.injEq] at hl
      rw [erase_injective_of_quiet (hq e' (List.mem_cons_self _ _)) hl.1,
        ih l (fun x hx => hq x (List.mem_cons_of_mem _ hx)) hl.2]

theorem quiet_of_appLog_nil {l : List Event} (hl : appLog l = []) :
    ∀ e ∈ l, e.appLine = none := by
  intro e he
  have := List.filterMap_eq_nil_iff.mp hl e he
  exact this

theorem blindLines_erase (method : String) :
    BlindLines (some ∘ Event.erase) method :=
  ⟨fun _ _ => rfl, fun _ _ _ => rfl, fun _ _ => rfl, fun _ _ _ => rfl⟩

theorem process_trace_split (h : Host) (ev : Evaluator) (polls : List GlobalState)
    (cache : Cache) (clock : Nat) (hd : waitDone ev.conf_.start_immediately polls = true) :
    ∃ rest, (ev.process h polls (Machine.init cache clock)).machine.trace
      = ev.setupEvents h ++ waitEvents ev.conf_.start_immediately polls
        ++ .app_info header :: rest := by
  have hfin : (ev.process h polls (Machine.init cache clock)).status = .finished := by
    rw [Evaluator.process_status, hd]; rfl
  obtain ⟨records, hlog, -⟩ := process_log_shape h ev polls cache clock hfin
  have hmap := ev.process_emits (some ∘ Event.erase) h polls (fun k => blindLines_erase k.label)
    (Machine.init cache clock)
  simp only [List.filterMap_eq_map, Evaluator.processEvents, hd, if_true] at hmap
  have hnil : (Machine.init cache clock).trace = [] := rfl
  rw [hnil, List.map_nil, List.nil_append, List.map_append] at hmap
  obtain ⟨l1, l2, hsplit, hl1, hl2⟩ := List.map_eq_append_iff.mp hmap
  have hquiet : appLog (ev.setupEvents h ++ waitEvents ev.conf_.start_immediately polls) = [] := by
    rw [appLog_append, appLog_setupEvents, appLog_waitEvents]; rfl
  have hl1' := map_erase_of_quiet _ l1 (quiet_of_appLog_nil hquiet) hl1
  rw [Evaluator.measurementEvents, List.cons_append, List.map_cons] at hl2
  obtain ⟨e, rest, hl2', he, -⟩ := List.map_eq_cons_iff.mp hl2
  refine ⟨rest, ?_⟩
  rw [hsplit, hl1', hl2']
  rw [hsplit, hl1', hl2', appLog_append, hquiet, List.nil_append] at hlog
  cases e <;> simp [Event.erase] at he
  case app_info msg =>
    have : msg = header := by
      simpa [appLog, List.filterMap_cons, Event.appLine] using congrArg List.head? hlog
    rw [this]

theorem waitEvents_blocked (polls : List GlobalState) (hp : ∀ g ∈ polls, g ≠ .Started) :
    waitEvents false polls = polls.flatMap (fun g => [Event.poll g, Event.sleep_for 1])
      ∧ waitDone false polls = false := by
  induction polls with
  | nil => exact ⟨rfl, rfl⟩
  | cons g polls ih =>
    have hg : g.is_started = false := by
      have := hp g (List.mem_cons_self _ _)
      cases g <;> simp_all [GlobalState.is_started]
    have := ih (fun x hx => hp x (List.mem_cons_of_mem _ hx))
    simp [waitEvents, waitDone, hg, this.1, this.2, List.flatMap_cons]

theorem waitEvents_started (pre post : List GlobalState) (hp : ∀ g ∈ pre, g ≠ .Started) :
    waitEvents false (pre ++ .Started :: post)
        = pre.flatMap (fun g => [Event.poll g, Event.sleep_for 1]) ++ [Event.poll .Started]
      ∧ waitDone false (pre ++ .Started :: post) = true := by
  induction pre with
  | nil => exact ⟨rfl, rfl⟩
  | cons g pre ih =>
    have hg : g.is_started = false := by
      have := hp g (List.mem_cons_self _ _)
      cases g <;> simp_all [GlobalState.is_started]
    have := ih (fun x hx => hp x (List.mem_cons_of_mem _ hx))
    simp [waitEvents, waitDone, hg, this.1, this.2, List.flatMap_cons]

theorem countP_isAction_setup (h : Host) (ev : Evaluator) :
    (ev.setupEvents h).countP Event.isAction = 0 := by
  simp only [Evaluator.setupEvents]
  cases ev.conf_.cpu_to_pin <;> cases h.x86_64 <;> rfl

theorem countP_isAction_polls (polls : List GlobalState) :
    (polls.flatMap (fun g => [Event.poll g, Event.sleep_for 1])).countP Event.isAction = 0 := by
  induction polls with
  | nil => rfl
  | cons g polls ih =>
    rw [List.flatMap_cons, List.countP_append, ih]
    rfl

theorem filter_isMemory_of_countP {l : List Event} (hl : l.countP Event.isAction = 0) :
    l.filter Event.isMemory = [] := by
  rw [List.filter_eq_nil_iff]
  intro e he hm
  have := List.countP_eq_zero.mp hl e he
  cases e <;> simp_all [Event.isAction, Event.isMemory]

theorem countP_isAction_waitEvents (start_immediately : Bool) (polls : List GlobalState) :
    (waitEvents start_immediately polls).countP Event.isAction = 0 := by
  induction polls with
  | nil => rfl
  | cons g polls ih =>
    by_cases hp : (!g.is_started && !start_immediately) = true
    · simp only [waitEvents, hp, if_true, List.countP_cons, ih]
      rfl
    · simp only [waitEvents, hp, Bool.false_eq_true, if_false]
      rfl

theorem process_memory (h : Host) (conf : settings) (polls : List GlobalState)
    (cache : Cache) (clock : Nat) (hsets : conf.sets ≤ 64)
    (hd : waitDone conf.start_immediately polls = true) :
    ((Evaluator.build conf).process h polls (Machine.init cache clock)).machine.trace.filter
        Event.isMemory
      = memoryReference .flush_flush conf.count conf.sets
        ++ memoryReference .flush_prefetch conf.count conf.sets
        ++ memoryReference .flush_reload conf.count conf.sets := by
  have hconf : (Evaluator.build conf).conf_ = conf := rfl
  have hnil : (Machine.init cache clock).trace = [] := rfl
  have := (Evaluator.build conf).process_emits
    (Option.guard fun e : Event => e.isMemory = true) h polls
    (fun k => blindLines_memory k.label) (Machine.init cache clock)
  simp only [List.filterMap_eq_filter, Evaluator.processEvents, hconf, hd, if_true] at this
  rw [this, hnil, List.filter_append, List.filter_append,
    filter_isMemory_of_countP (countP_isAction_setup h _),
    filter_isMemory_of_countP (countP_isAction_waitEvents _ _)]
  simp only [Evaluator.measurementEvents, List.nil_append, List.cons_append,
    List.filter_cons, Event.isMemory, Bool.false_eq_true, if_false, List.filter_append,
    filter_methodEvents h conf _ hsets, List.filter_nil, List.append_nil, List.append_assoc]

/-- C10: with `start_immediately = false`, as long as no poll of the barrier has
observed `Started` the run is waiting and has done nothing but its set-up and, per
poll, the poll and a sleep of one millisecond: no header, no record, no memory action.
When the polls observe `Started` for the first time, everything before that poll is
the set-up and the polls and sleeps (no action among them), and the header and the
measurements follow right after it.  With `start_immediately = true` the loop is left
at its first test, whatever state that poll observes: one poll, no sleep, then the
header. -/
theorem barrier_gating (h : Host) (conf : settings) (ev : Evaluator) (cache : Cache)
    (clock : Nat) (hnew : Evaluator.new conf = .ok ev) :
    (conf.start_immediately = false →
      (∀ polls : List GlobalState, (∀ g ∈ polls, g ≠ .Started) →
        (ev.process h polls (Machine.init cache clock)).status = .waiting
        ∧ (ev.process h polls (Machine.init cache clock)).machine.trace
            = ev.setupEvents h ++ polls.flatMap (fun g => [Event.poll g, Event.sleep_for 1])
        ∧ (ev.process h polls (Machine.init cache clock)).machine.trace.countP Event.isAction
            = 0)
      ∧ (∀ pre post : List GlobalState, (∀ g ∈ pre, g ≠ .Started) →
        (ev.process h (pre ++ .Started :: post) (Machine.init cache clock)).status = .finished
        ∧ ∃ rest,
            (ev.process h (pre ++ .Started :: post) (Machine.init cache clock)).machine.trace
              = (ev.setupEvents h ++ pre.flatMap (fun g => [Event.poll g, Event.sleep_for 1]))
                ++ [Event.poll .Started] ++ Event.app_info header :: rest
            ∧ (ev.setupEvents h
                ++ pre.flatMap (fun g => [Event.poll g, Event.sleep_for 1])).countP
                  Event.isAction = 0
            ∧ rest.filter Event.isMemory
                = memoryReference .flush_flush conf.count conf.sets
                  ++ memoryReference .flush_prefetch conf.count conf.sets
                  ++ memoryReference .flush_reload conf.count conf.sets))
    ∧ (conf.start_immediately = true →
      ∀ (g : GlobalState) (polls : List GlobalState),
        (ev.process h (g :: polls) (Machine.init cache clock)).status = .finished
        ∧ ∃ rest, (ev.process h (g :: polls) (Machine.init cache clock)).machine.trace
            = ev.setupEvents h ++ [Event.poll g] ++ Event.app_info header :: rest) := by
  obtain ⟨hev, hsets⟩ := build_of_new hnew
  have hconf : ev.conf_ = conf := conf_of_new hnew
  refine ⟨fun hsi => ⟨fun polls hp => ?_, fun pre post hp => ?_⟩, fun hsi g polls => ?_⟩
  · obtain ⟨hw, hd⟩ := waitEvents_blocked polls hp
    have hst : (ev.process h polls (Machine.init cache clock)).status = .waiting := by
      rw [Evaluator.process_status, hconf, hsi, hd]; rfl
    have htr := trace_of_emits
      (f := fun m => (ev.process h polls m).machine) (E := ev.processEvents h polls)
      ?_ (Machine.init cache clock)
    · have htr' : (ev.process h polls (Machine.init cache clock)).machine.trace
          = ev.setupEvents h ++ polls.flatMap (fun g => [Event.poll g, Event.sleep_for 1]) := by
        rw [htr]
        simp [Machine.init, Evaluator.processEvents, hconf, hsi, hd, hw]
      refine ⟨hst, htr', ?_⟩
      rw [htr', List.countP_append, countP_isAction_setup, countP_isAction_polls]
    · intro m
      have hpre := ((ev.setup_emits some h).comp
        (Evaluator.wait_emits some h ev.conf_.start_immediately polls)) m
      have hd' : waitDone ev.conf_.start_immediately polls = false := by rw [hconf, hsi, hd]
      unfold Evaluator.process
      simp only [Evaluator.wait_done, Evaluator.processEvents, hd', Bool.false_eq_true,
        if_false, List.append_nil]
      cases hx : h.x86_64 <;>
        simp only [hx, if_true, if_false, Bool.false_eq_true] at hpre ⊢ <;> exact hpre
  · obtain ⟨hw, hd⟩ := waitEvents_started pre post hp
    have hd' : waitDone ev.conf_.start_immediately (pre ++ .Started :: post) = true := by
      rw [hconf, hsi, hd]
    obtain ⟨rest, hrest⟩ := process_trace_split h ev (pre ++ .Started :: post) cache clock hd'
    rw [hconf, hsi, hw] at hrest
    refine ⟨by rw [Evaluator.process_status, hd']; rfl, rest, ?_, ?_, ?_⟩
    · rw [hrest]; simp only [List.append_assoc]
    · rw [List.countP_append, countP_isAction_setup, countP_isAction_polls]
    · have hmem := process_memory h conf (pre ++ .Started :: post) cache clock hsets
        (by rw [hsi, hd])
      rw [← hev, hrest] at hmem
      rw [← hmem]
      simp only [List.filter_append, List.filter_cons, List.filter_nil,
        filter_isMemory_of_countP (countP_isAction_setup h ev),
        filter_isMemory_of_countP (countP_isAction_polls pre), Event.isMemory,
        Bool.false_eq_true, if_false, List.nil_append]
  · have hd' : waitDone ev.conf_.start_immediately (g :: polls) = true := by
      rw [hconf, hsi]; simp [waitDone]
    obtain ⟨rest, hrest⟩ := process_trace_split h ev (g :: polls) cache clock hd'
    refine ⟨by rw [Evaluator.process_status, hd']; rfl, rest, ?_⟩
    rw [hrest, hconf, hsi]
    simp [waitEvents]

/-- An instance of C10, count = 1 and sets = 1 without immediate start: polls that
observe `NotStarted` and `Stopped` leave the run waiting with no action done; once a
third poll observes `Started` the run finishes. -/
theorem barrier_gating_witness :
    ((Evaluator.build { count := 1, sets := 1, start_immediately := false }).process
        Host.simulated [.NotStarted, .Stopped] (Machine.init (fun _ => false) 0)).status
        = .waiting
    ∧ ((Evaluator.build { count := 1, sets := 1, start_immediately := false }).process
        Host.simulated [.NotStarted, .Stopped]
        (Machine.init (fun _ => false) 0)).machine.trace.countP Event.isAction = 0
    ∧ ((Evaluator.build { count := 1, sets := 1, start_immediately := false }).process
        Host.simulated ([.NotStarted, .Stopped] ++ .Started :: [.NotStarted])
        (Machine.init (fun _ => false) 0)).status = .finished :=
  ⟨(((barrier_gating Host.simulated { count := 1, sets := 1, start_immediately := false }
      (Evaluator.build { count := 1, sets := 1, start_immediately := false })
      (fun _ => false) 0 rfl).1 rfl).1 [.NotStarted, .Stopped] (by decide)).1,
   (((barrier_gating Host.simulated { count := 1, sets := 1, start_immediately := false }
      (Evaluator.build { count := 1, sets := 1, start_immediately := false })
      (fun _ => false) 0 rfl).1 rfl).1 [.NotStarted, .Stopped] (by decide)).2.2,
   (((barrier_gating Host.simulated { count := 1, sets := 1, start_immediately := false }
      (Evaluator.build { count := 1, sets := 1, start_immediately := false })
      (fun _ => false) 0 rfl).1 rfl).2 [.NotStarted, .Stopped] [.NotStarted] (by decide)).1⟩

theorem build_arr (conf : settings) :
    (Evaluator.build conf).arr = List.range 64 := by
  rfl

/-- C11: for every settings value the constructor accepts (`sets ≤ 64`), the address
table of the Evaluator has exactly 64 entries, as many as the backing store has cells,
whatever `sets` is, and entry `i` designates backing-store cell `i` for every `i` in
`[0, 64)`.  `measure` and `process` only read the table: throughout a run of `process`
every memory action made through the table goes to the cell whose index is the index
of the entry used (all 64 cells in the preparations and in the global reset, the cells
`0..s-1` in the timed loop at size `s`). -/
theorem address_table_fixed (conf : settings) (ev : Evaluator)
    (hnew : Evaluator.new conf = .ok ev) :
    ev.ptr_arr.length = 64
    ∧ ev.arr.length = 64
    ∧ (∀ i, i < 64 → ev.ptr_arr[i]? = some (Address.arr i))
    ∧ ev.ptr_arr = (List.range 64).map Address.arr
    ∧ (∀ (h : Host) (polls : List GlobalState) (cache : Cache) (clock : Nat),
        (ev.process h polls (Machine.init cache clock)).status = .finished →
        (ev.process h polls (Machine.init cache clock)).machine.trace.filter Event.isMemory
          = memoryReference .flush_flush conf.count conf.sets
            ++ memoryReference .flush_prefetch conf.count conf.sets
            ++ memoryReference .flush_reload conf.count conf.sets) := by
  obtain ⟨hev, hsets⟩ := build_of_new hnew
  subst hev
  refine ⟨by rw [build_ptr_arr]; simp, by rw [build_arr]; simp, fun i hi => ?_,
    build_ptr_arr conf, fun h polls cache clock hfin => ?_⟩
  · rw [build_ptr_arr]
    simp [hi]
  · have hd : waitDone conf.start_immediately polls = true := by
      rw [Evaluator.process_status] at hfin
      cases hw : waitDone (Evaluator.build conf).conf_.start_immediately polls with
      | true => exact hw
      | false => rw [hw] at hfin; exact Status.noConfusion hfin
    exact process_memory h conf polls cache clock hsets hd

/-- An instance of C11: `sets = 3`; the table has 64 entries all the same. -/
theorem address_table_fixed_witness :
    (Evaluator.build { sets := 3 }).ptr_arr.length = 64
    ∧ (Evaluator.build { sets := 3 }).arr.length = 64
    ∧ (∀ i, i < 64 → (Evaluator.build { sets := 3 }).ptr_arr[i]? = some (Address.arr i))
    ∧ (Evaluator.build { sets := 3 }).ptr_arr = (List.range 64).map Address.arr
    ∧ (∀ (h : Host) (polls : List GlobalState) (cache : Cache) (clock : Nat),
        ((Evaluator.build { sets := 3 }).process h polls (Machine.init cache clock)).status
          = .finished →
        ((Evaluator.build { sets := 3 }).process h polls
            (Machine.init cache clock)).machine.trace.filter Event.isMemory
          = memoryReference .flush_flush 1000 3
            ++ memoryReference .flush_prefetch 1000 3
            ++ memoryReference .flush_reload 1000 3) :=
  address_table_fixed { sets := 3 } (Evaluator.build { sets := 3 }) rfl

end Claims

section Costs

variable (h : Host)

theorem replay_append (E E' : List Event) (m : Machine) :
    replay h (E ++ E') m = replay h E' (replay h E m) := by
  simp [replay, List.foldl_append]

theorem replay_clock (E : List Event) : ∀ m : Machine,
    (replay h E m).clock = m.clock + runCost h E m.cache := by
  induction E with
  | nil => intro m; rfl
  | cons e E ih =>
    intro m
    show (replay h E (m.emit h e)).clock = _
    rw [ih]
    simp [Machine.emit, runCost, Nat.add_assoc]

theorem replay_cache (E : List Event) : ∀ m : Machine,
    (replay h E m).cache = runCache h E m.cache := by
  induction E with
  | nil => intro m; rfl
  | cons e E ih =>
    intro m
    show (replay h E (m.emit h e)).cache = _
    rw [ih]
    rfl

theorem runCost_append (E E' : List Event) : ∀ c : Cache,
    runCost h (E ++ E') c = runCost h E c + runCost h E' (runCache h E c) := by
  induction E with
  | nil => intro c; simp [runCost, runCache]
  | cons e E ih => intro c; simp [runCost, runCache, ih, Nat.add_assoc]

theorem runCache_append (E E' : List Event) : ∀ c : Cache,
    runCache h (E ++ E') c = runCache h E' (runCache h E c) := by
  induction E with
  | nil => intro c; rfl
  | cons e E ih => intro c; simp [runCache, ih]

theorem Method.op_replay (k : Method) (a : Address) (m : Machine) :
    (k.op h a m).2 = replay h (k.opEvents h a) m := by
  cases k <;> cases hx : h.x86_64 <;>
    simp [Method.op, Method.opEvents, Method.tsc, Method.first, Method.cleanup, Host.strategy,
      hx, channel_access.flush_flush, channel_access.flush_prefetch,
      channel_access.flush_reload, timeit, timedEvents, replay]

theorem foldl_replay {ι : Type} (E : ι → List Event) (l : List ι) : ∀ m : Machine,
    l.foldl (fun m i => replay h (E i) m) m = replay h (l.flatMap E) m := by
  induction l with
  | nil => intro m; rfl
  | cons i l ih => intro m; rw [List.foldl_cons, ih, List.flatMap_cons, replay_append]

theorem foldl_congr_mem {σ ι : Type} (f g : σ → ι → σ) (l : List ι)
    (hfg : ∀ s, ∀ i ∈ l, f s i = g s i) : ∀ s, l.foldl f s = l.foldl g s := by
  induction l with
  | nil => intro s; rfl
  | cons i l ih =>
    intro s
    rw [List.foldl_cons, List.foldl_cons, hfg s i (List.mem_cons_self _ _)]
    exact ih (fun s' i' hi' => hfg s' i' (List.mem_cons_of_mem _ hi')) _

theorem Evaluator.apply_op_replay (conf : settings) (k : Method) (s : Nat) (hs : s ≤ 64)
    (m : Machine) :
    (Evaluator.build conf).apply_op (k.op h) s m = replay h (windowEvents h k s) m := by
  unfold Evaluator.apply_op forLoop windowEvents
  rw [← foldl_replay]
  refine foldl_congr_mem _ _ _ (fun m' j hj => ?_) m
  show (k.op h ((Evaluator.build conf).ptr_arr.getD j Address.unset) m').2 = _
  rw [build_getD conf j (by have := List.mem_range.mp hj; omega), Method.op_replay]
  rfl

theorem Evaluator.measure_duration_value (ev : Evaluator) (f : Machine → Machine)
    (E : List Event) (hf : ∀ m, f m = replay h E m) (m : Machine) :
    (ev.measure_duration h f m).1 = runCost h E m.cache % 2 ^ 64 := by
  have ht : ∀ s, (timeit h s f m).1 = runCost h E m.cache % 2 ^ 64 := by
    intro s
    simp only [timeit, hf, replay_clock, return_t_mod]
    simp [Machine.emit, Event.effect]
  unfold Evaluator.measure_duration
  cases h.x86_64 <;> cases ev.conf_.measure_with_perf <;> simp [ht]

end Costs

section Residency

variable (h : Host)

theorem util.reload_cache (F : Bool) (a b : Address) (m : Machine) :
    (b = a ∨ m.cache b = true) → (util.reload h F a m).cache b = true := by
  intro hb
  cases F <;>
    simp only [util.reload, const_for, List.range', List.foldl_cons, List.foldl_nil,
      Machine.emit, Event.effect, Bool.false_eq_true, if_false, if_true] <;>
    rcases hb with rfl | hb <;> simp [*]

theorem util.reload_each_cache (F : Bool) (as : List Address) (b : Address) :
    ∀ m : Machine, (b ∈ as ∨ m.cache b = true) → (util.reload_each h F as m).cache b = true := by
  induction as with
  | nil => intro m hb; simpa [util.reload_each] using hb
  | cons a as ih =>
    intro m hb
    show (util.reload_each h F as (util.reload h F a m)).cache b = true
    rcases hb with hb | hb
    · rcases List.mem_cons.mp hb with rfl | hb
      · exact ih _ (Or.inr (util.reload_cache h F _ _ m (Or.inl rfl)))
      · exact ih _ (Or.inl hb)
    · exact ih _ (Or.inr (util.reload_cache h F _ _ m (Or.inr hb)))

theorem util.flush_cache (F : Bool) (a b : Address) (m : Machine) :
    (b = a ∨ m.cache b = false) → (util.flush h F a m).cache b = false := by
  intro hb
  cases F <;>
    simp only [util.flush, const_for, List.range', List.foldl_cons, List.foldl_nil,
      Machine.emit, Event.effect, Bool.false_eq_true, if_false, if_true] <;>
    rcases hb with rfl | hb <;> simp [*]

theorem util.flush_each_cache (F : Bool) (as : List Address) (b : Address) :
    ∀ m : Machine, (b ∈ as ∨ m.cache b = false) → (util.flush_each h F as m).cache b = false := by
  induction as with
  | nil => intro m hb; simpa [util.flush_each] using hb
  | cons a as ih =>
    intro m hb
    show (util.flush_each h F as (util.flush h F a m)).cache b = false
    rcases hb with hb | hb
    · rcases List.mem_cons.mp hb with rfl | hb
      · exact ih _ (Or.inr (util.flush_cache h F _ _ m (Or.inl rfl)))
      · exact ih _ (Or.inl hb)
    · exact ih _ (Or.inr (util.flush_cache h F _ _ m (Or.inr hb)))

theorem arr_mem_build (conf : settings) (j : Nat) (hj : j < 64) :
    Address.arr j ∈ (Evaluator.build conf).ptr_arr := by
  rw [build_ptr_arr]
  exact List.mem_map.mpr ⟨j, List.mem_range.mpr hj, rfl⟩

end Residency

section Simulated

variable {h : Host}

theorem cost_const (hsim : h.SimulatedBackend) {e : Event} (he : e.address = none)
    (c d : Cache) : h.cost e c = h.cost e d :=
  hsim.1.1 e c d (fun a ha => by rw [he] at ha; exact Option.noConfusion ha)

theorem cost_hit (hsim : h.SimulatedBackend) {e : Event} {a : Address}
    (he : e.address = some a) {c d : Cache} (hcc : c a = d a) : h.cost e c = h.cost e d :=
  hsim.1.1 e c d (fun b hb => by
    rw [he] at hb
    cases hb
    exact hcc)

theorem cost_miss (hsim : h.SimulatedBackend) {e : Event} {a : Address}
    (he : e.address = some a) {c d : Cache} (hc : c a = true) (hd : d a = false) :
    h.cost e c < h.cost e d :=
  hsim.1.2 e a c d he hc hd

theorem cost_le (hsim : h.SimulatedBackend) {e : Event} {a : Address}
    (he : e.address = some a) {c d : Cache} (hc : c a = true) : h.cost e c ≤ h.cost e d := by
  cases hd : d a with
  | true => exact Nat.le_of_eq (cost_hit hsim he (by rw [hc, hd]))
  | false => exact Nat.le_of_lt (cost_miss hsim he hc hd)

theorem op_cache_other (k : Method) (a b : Address) (hb : b ≠ a) (c : Cache) :
    runCache h (k.opEvents h a) c b = c b := by
  cases k <;>
    simp [Method.opEvents, timedEvents, Method.first, Method.cleanup, runCache, Event.effect, hb]

theorem effect_tic (s : Strategy) (c : Cache) : (Event.tic s).effect h c = c := rfl

theorem effect_toc (s : Strategy) (c : Cache) : (Event.toc s).effect h c = c := rfl

theorem op_cost_hit (hsim : h.SimulatedBackend) (k : Method) (a : Address) {c d : Cache}
    (hc : c a = true) (hd : d a = true) :
    runCost h (k.opEvents h a) c = runCost h (k.opEvents h a) d := by
  have htic := cost_const hsim (e := .tic (h.strategy k.tsc)) rfl c d
  have hcc : c a = d a := by rw [hc, hd]
  cases k <;>
    simp only [Method.opEvents, timedEvents, Method.first, Method.cleanup, runCost,
      List.cons_append, List.nil_append, List.append_nil, Nat.add_zero, effect_tic,
      effect_toc] at htic ⊢
  · have h1 := cost_hit hsim (e := .flush a) rfl hcc
    have h2 := cost_const hsim (e := .toc (h.strategy Method.flush_flush.tsc)) rfl
      ((Event.flush a).effect h c) ((Event.flush a).effect h d)
    omega
  · have h1 := cost_hit hsim (e := .prefetch a) rfl hcc
    have h2 := cost_const hsim (e := .toc (h.strategy Method.flush_prefetch.tsc)) rfl
      ((Event.prefetch a).effect h c) ((Event.prefetch a).effect h d)
    have h3 := cost_hit hsim (e := .flush a) rfl
      (c := (Event.prefetch a).effect h c) (d := (Event.prefetch a).effect h d)
      (by simp [Event.effect, hc, hd])
    omega
  · have h1 := cost_hit hsim (e := .access_read a) rfl hcc
    have h2 := cost_const hsim (e := .toc (h.strategy Method.flush_reload.tsc)) rfl
      ((Event.access_read a).effect h c) ((Event.access_read a).effect h d)
    have h3 := cost_hit hsim (e := .flush a) rfl
      (c := (Event.access_read a).effect h c) (d := (Event.access_read a).effect h d)
      (by simp [Event.effect])
    omega

theorem op_cost_miss (hsim : h.SimulatedBackend) (k : Method) (a : Address) {c d : Cache}
    (hc : c a = true) (hd : d a = false) :
    runCost h (k.opEvents h a) c < runCost h (k.opEvents h a) d := by
  have htic := cost_const hsim (e := .tic (h.strategy k.tsc)) rfl c d
  cases k <;>
    simp only [Method.opEvents, timedEvents, Method.first, Method.cleanup, runCost,
      List.cons_append, List.nil_append, List.append_nil, Nat.add_zero, effect_tic,
      effect_toc] at htic ⊢
  · have h1 := cost_miss hsim (e := .flush a) rfl hc hd
    have h2 := cost_const hsim (e := .toc (h.strategy Method.flush_flush.tsc)) rfl
      ((Event.flush a).effect h c) ((Event.flush a).effect h d)
    omega
  · have h1 := cost_miss hsim (e := .prefetch a) rfl hc hd
    have h2 := cost_const hsim (e := .toc (h.strategy Method.flush_prefetch.tsc)) rfl
      ((Event.prefetch a).effect h c) ((Event.prefetch a).effect h d)
    have h3 := cost_le hsim (e := .flush a) rfl
      (c := (Event.prefetch a).effect h c) (d := (Event.prefetch a).effect h d)
      (by simp [Event.effect, hc])
    omega
  · have h1 := cost_miss hsim (e := .access_read a) rfl hc hd
    have h2 := cost_const hsim (e := .toc (h.strategy Method.flush_reload.tsc)) rfl
      ((Event.access_read a).effect h c) ((Event.access_read a).effect h d)
    have h3 := cost_le hsim (e := .flush a) rfl
      (c := (Event.access_read a).effect h c) (d := (Event.access_read a).effect h d)
      (by simp [Event.effect])
    omega

end Simulated

section Window

variable {h : Host}

theorem windowEvents_succ (k : Method) (s : Nat) :
    windowEvents h k (s + 1) = windowEvents h k s ++ k.opEvents h (.arr s) := by
  simp only [windowEvents, List.range_succ, List.flatMap_append, List.flatMap_cons,
    List.flatMap_nil, List.append_nil]
  rfl

theorem window_cache_other (k : Method) (b : Address) :
    ∀ (s : Nat) (c : Cache), (∀ j, j < s → b ≠ .arr j) →
      runCache h (windowEvents h k s) c b = c b := by
  intro s
  induction s with
  | zero => intro c _; rfl
  | succ s ih =>
    intro c hb
    rw [windowEvents_succ, runCache_append, op_cache_other k _ b (hb s (Nat.lt_succ_self s)),
      ih c (fun j hj => hb j (Nat.lt_succ_of_lt hj))]

theorem window_cost_hit (hsim : h.SimulatedBackend) (k : Method) :
    ∀ (s : Nat) (c d : Cache), (∀ j, j < s → c (.arr j) = true) →
      (∀ j, j < s → d (.arr j) = true) →
      runCost h (windowEvents h k s) c = runCost h (windowEvents h k s) d := by
  intro s
  induction s with
  | zero => intro c d _ _; rfl
  | succ s ih =>
    intro c d hc hd
    have hne : ∀ j, j < s → Address.arr s ≠ Address.arr j := by
      intro j hj hEq
      cases hEq
      exact Nat.lt_irrefl _ hj
    have h2 := op_cost_hit hsim k (.arr s)
      (c := runCache h (windowEvents h k s) c) (d := runCache h (windowEvents h k s) d)
      (by rw [window_cache_other k _ s c hne]; exact hc s (Nat.lt_succ_self s))
      (by rw [window_cache_other k _ s d hne]; exact hd s (Nat.lt_succ_self s))
    rw [windowEvents_succ, runCost_append, runCost_append,
      ih c d (fun j hj => hc j (Nat.lt_succ_of_lt hj)) (fun j hj => hd j (Nat.lt_succ_of_lt hj)),
      h2]

theorem window_cost_miss (hsim : h.SimulatedBackend) (k : Method) :
    ∀ (s : Nat) (c d : Cache), (∀ j, j < s → c (.arr j) = true) →
      (∀ j, j < s → d (.arr j) = false) →
      runCost h (windowEvents h k s) c + s ≤ runCost h (windowEvents h k s) d := by
  intro s
  induction s with
  | zero => intro c d _ _; exact Nat.le_refl _
  | succ s ih =>
    intro c d hc hd
    have hne : ∀ j, j < s → Address.arr s ≠ Address.arr j := by
      intro j hj hEq
      cases hEq
      exact Nat.lt_irrefl _ hj
    have h1 := ih c d (fun j hj => hc j (Nat.lt_succ_of_lt hj))
      (fun j hj => hd j (Nat.lt_succ_of_lt hj))
    have h2 := op_cost_miss hsim k (.arr s)
      (c := runCache h (windowEvents h k s) c) (d := runCache h (windowEvents h k s) d)
      (by rw [window_cache_other k _ s c hne]; exact hc s (Nat.lt_succ_self s))
      (by rw [window_cache_other k _ s d hne]; exact hd s (Nat.lt_succ_self s))
    rw [windowEvents_succ, runCost_append, runCost_append]
    omega

theorem runCost_bound (hsim : h.SimulatedBackend) (E : List Event) : ∀ c : Cache,
    runCost h E c + E.length ≤ E.length * 2 ^ 56 := by
  induction E with
  | nil => intro c; simp [runCost]
  | cons e E ih =>
    intro c
    have h1 := hsim.2 e c
    have h2 := ih (e.effect h c)
    simp only [runCost, List.length_cons, Nat.succ_mul]
    omega

theorem length_windowEvents (k : Method) (s : Nat) : (windowEvents h k s).length ≤ 4 * s := by
  induction s with
  | zero => simp [windowEvents]
  | succ s ih =>
    rw [windowEvents_succ, List.length_append]
    have : (k.opEvents h (.arr s)).length ≤ 4 := by
      cases k <;> simp [Method.opEvents, timedEvents, Method.cleanup]
    omega

theorem window_no_wrap (hsim : h.SimulatedBackend) (k : Method) (s : Nat) (hs : s ≤ 64)
    (c : Cache) : runCost h (windowEvents h k s) c < 2 ^ 64 := by
  have h1 := runCost_bound hsim (windowEvents h k s) c
  have h2 := length_windowEvents (h := h) k s
  have h3 : (windowEvents h k s).length * 2 ^ 56 ≤ 256 * 2 ^ 56 :=
    Nat.mul_le_mul_right _ (by omega)
  have h4 : (256 : Nat) * 2 ^ 56 = 2 ^ 64 := by norm_num
  by_cases hlen : (windowEvents h k s).length = 0
  · have : windowEvents h k s = [] := List.length_eq_zero.mp hlen
    rw [this]
    simp [runCost]
  · omega

end Window

section Holders

variable (h : Host)

theorem foldl_inv {σ ι : Type} (Inv : σ → Prop) (body : ι → σ → σ) (l : List ι)
    (hb : ∀ i ∈ l, ∀ s, Inv s → Inv (body i s)) :
    ∀ s, Inv s → Inv (l.foldl (fun s i => body i s) s) := by
  induction l with
  | nil => intro s hs; exact hs
  | cons i l ih =>
    intro s hs
    exact ih (fun j hj => hb j (List.mem_cons_of_mem _ hj)) _
      (hb i (List.mem_cons_self _ _) s hs)

theorem forLoop_succ {σ : Type} (n : Nat) (body : Nat → σ → σ) (s : σ) :
    forLoop (n + 1) body s = body n (forLoop n body s) := by
  simp [forLoop, List.range_succ, List.foldl_append]

theorem quiet_of_emits {f : Machine → Machine} {E : List Event}
    (hf : Emits Machine.trace Event.appLine f E) (hE : appLog E = []) (m : Machine) :
    appLog (f m).trace = appLog m.trace := by
  have := hf m
  simp only [appLog] at hE ⊢
  rw [this, hE, List.append_nil]

theorem Evaluator.fill_log (count : Nat) (prepare : Machine → Machine)
    (timed : Machine → Nat × Machine)
    (hp : ∀ m, appLog (prepare m).trace = appLog m.trace)
    (ht : ∀ m, appLog (timed m).2.trace = appLog m.trace) (s : Machine × List Nat) :
    appLog (Evaluator.fill count prepare timed s).1.trace = appLog s.1.trace := by
  unfold Evaluator.fill forLoop
  refine foldl_inv (fun r : Machine × List Nat => appLog r.1.trace = appLog s.1.trace) _ _
    (fun i _ r hr => ?_) s rfl
  show appLog (timed (prepare r.1)).2.trace = _
  rw [ht, hp, hr]

theorem Evaluator.fill_holder (prepare : Machine → Machine)
    (timed : Machine → Nat × Machine) (P : Nat → Prop)
    (hP : ∀ m, P (timed (prepare m)).1) (s : Machine × List Nat) :
    ∀ n, n ≤ s.2.length →
      (Evaluator.fill n prepare timed s).2.length = s.2.length
      ∧ ∀ i, i < n → P ((Evaluator.fill n prepare timed s).2.getD i 0) := by
  intro n
  induction n with
  | zero => intro _; exact ⟨rfl, fun i hi => absurd hi (Nat.not_lt_zero i)⟩
  | succ n ih =>
    intro hn
    obtain ⟨hlen, hval⟩ := ih (Nat.le_of_succ_le hn)
    have hstep : Evaluator.fill (n + 1) prepare timed s
        = ((timed (prepare (Evaluator.fill n prepare timed s).1)).2,
            (Evaluator.fill n prepare timed s).2.set n
              (timed (prepare (Evaluator.fill n prepare timed s).1)).1) := by
      unfold Evaluator.fill
      rw [forLoop_succ]
    rw [hstep]
    refine ⟨by simp [hlen], fun i hi => ?_⟩
    by_cases hin : i = n
    · subst hin
      have : i < (Evaluator.fill i prepare timed s).2.length := by omega
      simp only [List.getD_eq_getElem?_getD, List.getElem?_set_self this]
      exact hP _
    · have : i < n := by omega
      have h1 := hval i this
      simp only [List.getD_eq_getElem?_getD] at h1 ⊢
      rw [List.getElem?_set_ne (by omega)]
      exact h1

theorem Evaluator.dump_log (count : Nat) (line : String → String → String)
    (holder : List Nat) (m : Machine) :
    appLog (Evaluator.dump h count line holder m).trace
      = appLog m.trace
        ++ (List.range count).map (fun i => line (toString i) (toString (holder.getD i 0))) := by
  have := @Emits.forLoop Machine String Machine.trace Event.appLine count
    (fun i m => m.emit h (.app_info (line (toString i) (toString (holder.getD i 0)))))
    (fun i => [.app_info (line (toString i) (toString (holder.getD i 0)))])
    (fun i _ => Emits.emit Event.appLine h _) m
  unfold Evaluator.dump appLog
  rw [this]
  congr 1
  induction List.range count with
  | nil => rfl
  | cons a l ih =>
    rw [List.flatMap_cons, List.map_cons, List.filterMap_append, ih]
    rfl

end Holders

section Lines

variable (h : Host)

theorem quiet_reload (F : Bool) (a : Address) (m : Machine) :
    appLog (util.reload h F a m).trace = appLog m.trace :=
  quiet_of_emits (util.reload_emits _ h F a) (appLog_reloadEvents F a) m

theorem quiet_flush (F : Bool) (a : Address) (m : Machine) :
    appLog (util.flush h F a m).trace = appLog m.trace :=
  quiet_of_emits (util.flush_emits _ h F a) (appLog_flushEvents F a) m

theorem quiet_reload_each (F : Bool) (as : List Address) (m : Machine) :
    appLog (util.reload_each h F as m).trace = appLog m.trace :=
  quiet_of_emits (util.reload_each_emits _ h F as)
    (by rw [appLog_flatMap]; simp [appLog_reloadEvents, flatMap_nil_const]) m

theorem quiet_flush_each (F : Bool) (as : List Address) (m : Machine) :
    appLog (util.flush_each h F as m).trace = appLog m.trace :=
  quiet_of_emits (util.flush_each_emits _ h F as)
    (by rw [appLog_flatMap]; simp [appLog_flushEvents, flatMap_nil_const]) m

theorem quiet_raw (k : Method) (a : Address) (m : Machine) :
    appLog (k.raw h a m).2.trace = appLog m.trace :=
  quiet_of_emits (Method.raw_emits _ h k a) (appLog_rawEvents h k a) m

theorem quiet_trial (ev : Evaluator) (k : Method) (cs : Nat) (m : Machine) :
    appLog (ev.measure_duration h (ev.apply_op (k.op h) cs) m).2.trace = appLog m.trace :=
  quiet_of_emits
    (ev.measure_duration_emits _ h (ev.apply_op_emits _ (Method.op_emits _ h k) cs))
    (appLog_trialEvents h ev k cs) m

theorem sweep_lines (count sets : Nat) (prepare : Machine → Machine)
    (timed : Nat → Machine → Nat × Machine) (line : Nat → String → String → String)
    (Q : String → Prop) (P : Nat → Nat → Prop)
    (hp : ∀ m, appLog (prepare m).trace = appLog m.trace)
    (ht : ∀ cs m, appLog (timed cs m).2.trace = appLog m.trace)
    (hP : ∀ cs m, 1 ≤ cs → cs ≤ sets → P cs (timed cs (prepare m)).1)
    (hQ : ∀ cs i d, 1 ≤ cs → cs ≤ sets → i < count → P cs d →
      Q (line cs (toString i) (toString d)))
    (s : Machine × List Nat) (hlen : s.2.length = count)
    (h0 : ∀ l ∈ appLog s.1.trace, Q l) :
    (forFromTo 1 sets (fun cs s =>
        (Evaluator.dump h count (line cs) (Evaluator.fill count prepare (timed cs) s).2
          (Evaluator.fill count prepare (timed cs) s).1,
         (Evaluator.fill count prepare (timed cs) s).2)) s).2.length = count
    ∧ ∀ l ∈ appLog (forFromTo 1 sets (fun cs s =>
        (Evaluator.dump h count (line cs) (Evaluator.fill count prepare (timed cs) s).2
          (Evaluator.fill count prepare (timed cs) s).1,
         (Evaluator.fill count prepare (timed cs) s).2)) s).1.trace, Q l := by
  unfold forFromTo
  refine foldl_inv
    (fun r : Machine × List Nat => r.2.length = count ∧ ∀ l ∈ appLog r.1.trace, Q l) _ _
    (fun cs hcs r hr => ?_) s ⟨hlen, h0⟩
  have hcs' := List.mem_range'_1.mp hcs
  have h1 : 1 ≤ cs := hcs'.1
  have h2 : cs ≤ sets := by omega
  obtain ⟨hl, hv⟩ := Evaluator.fill_holder prepare (timed cs) (P cs)
    (fun m => hP cs m h1 h2) r count (by rw [hr.1])
  refine ⟨by rw [hl, hr.1], fun l hl' => ?_⟩
  simp only [Evaluator.dump_log, Evaluator.fill_log count prepare (timed cs) hp (ht cs),
    List.mem_append, List.mem_map, List.mem_range] at hl'
  rcases hl' with hl' | ⟨i, hi, rfl⟩
  · exact hr.2 l hl'
  · exact hQ cs i _ h1 h2 hi (hv i hi)

theorem lineOk_raw_hit (PH PM : Nat → Nat → Prop) (k : Method) (i d : Nat) :
    LineOk PH PM (fmt.format "0,\x7b\x7d,raw,hit,0,\x7b\x7d,\x7b\x7d"
      [k.label, toString i, toString d]) :=
  ⟨_, parseRecord_raw_hit _ k.label_no_comma i d, fun hc => Category.noConfusion hc⟩

theorem lineOk_raw_miss (PH PM : Nat → Nat → Prop) (k : Method) (i d : Nat) :
    LineOk PH PM (fmt.format "0,\x7b\x7d,raw,miss,0,\x7b\x7d,\x7b\x7d"
      [k.label, toString i, toString d]) :=
  ⟨_, parseRecord_raw_miss _ k.label_no_comma i d, fun hc => Category.noConfusion hc⟩

theorem lineOk_access_hit (PH PM : Nat → Nat → Prop) (k : Method) (cs i d : Nat)
    (hd : PH cs d) :
    LineOk PH PM (fmt.format "0,\x7b\x7d,access,hit,\x7b\x7d,\x7b\x7d,\x7b\x7d"
      [k.label, toString cs, toString i, toString d]) :=
  ⟨_, parseRecord_access_hit _ k.label_no_comma cs i d,
    fun _ => ⟨fun _ => hd, fun hc => HitMiss.noConfusion hc⟩⟩

theorem lineOk_access_miss (PH PM : Nat → Nat → Prop) (k : Method) (cs i d : Nat)
    (hd : PM cs d) :
    LineOk PH PM (fmt.format "0,\x7b\x7d,access,miss,\x7b\x7d,\x7b\x7d,\x7b\x7d"
      [k.label, toString cs, toString i, toString d]) :=
  ⟨_, parseRecord_access_miss _ k.label_no_comma cs i d,
    fun _ => ⟨fun hc => HitMiss.noConfusion hc, fun _ => hd⟩⟩

end Lines

section MeasureLines

variable (h : Host)

theorem sized_getD (count : Nat) (st : Option Holders)
    (hst : ∀ hs, st = some hs → hs.sized count) :
    (st.getD (Holders.fresh count)).sized count := by
  cases st with
  | none => simp [Holders.sized, Holders.fresh]
  | some hs => exact hst hs rfl

theorem dump_lines (count : Nat) (line : String → String → String) (Q : String → Prop)
    (holder : List Nat) (m : Machine)
    (hQ : ∀ i d : Nat, i < count → Q (line (toString i) (toString d)))
    (h0 : ∀ l ∈ appLog m.trace, Q l) :
    ∀ l ∈ appLog (Evaluator.dump h count line holder m).trace, Q l := by
  intro l hl
  simp only [Evaluator.dump_log, List.mem_append, List.mem_map, List.mem_range] at hl
  rcases hl with hl | ⟨i, hi, rfl⟩
  · exact h0 l hl
  · exact hQ i _ hi

theorem Evaluator.measure_lines (ev : Evaluator) (k : Method) (PH PM : Nat → Nat → Prop)
    (hH : ∀ cs m, 1 ≤ cs → cs ≤ ev.conf_.sets →
      PH cs (ev.measure_duration h (ev.apply_op (k.op h) cs)
        (util.reload_each h false ev.ptr_arr m)).1)
    (hM : ∀ cs m, 1 ≤ cs → cs ≤ ev.conf_.sets →
      PM cs (ev.measure_duration h (ev.apply_op (k.op h) cs)
        (util.flush_each h false ev.ptr_arr m)).1)
    (s : Machine × Option Holders) (hst : ∀ hs, s.2 = some hs → hs.sized ev.conf_.count)
    (h0 : ∀ l ∈ appLog s.1.trace, LineOk PH PM l) :
    ∀ l ∈ appLog (ev.measure h (k.raw h) (k.op h) k.label false s).1.trace, LineOk PH PM l := by
  obtain ⟨hs1, hs2, hs3, hs4⟩ := sized_getD ev.conf_.count s.2 hst
  simp only [Evaluator.measure]
  refine (sweep_lines h ev.conf_.count ev.conf_.sets (util.flush_each h false ev.ptr_arr)
    (fun cs => ev.measure_duration h (ev.apply_op (k.op h) cs))
    (fun cs i d => fmt.format "0,\x7b\x7d,access,miss,\x7b\x7d,\x7b\x7d,\x7b\x7d"
      [k.label, toString cs, i, d])
    (LineOk PH PM) PM (quiet_flush_each h false _) (fun cs => quiet_trial h ev k cs) hM
    (fun cs i d _ _ _ hd => lineOk_access_miss PH PM k cs i d hd) _ hs4 ?_).2
  refine dump_lines h _ _ _ _ _ (fun i d _ => lineOk_raw_miss PH PM k i d) ?_
  rw [Evaluator.fill_log _ _ _ (quiet_flush h false _) (quiet_raw h k _)]
  show ∀ l ∈ appLog (util.flush_each h true ev.ptr_arr _).trace, _
  rw [quiet_flush_each, quiet_flush]
  refine (sweep_lines h ev.conf_.count ev.conf_.sets (util.reload_each h false ev.ptr_arr)
    (fun cs => ev.measure_duration h (ev.apply_op (k.op h) cs))
    (fun cs i d => fmt.format "0,\x7b\x7d,access,hit,\x7b\x7d,\x7b\x7d,\x7b\x7d"
      [k.label, toString cs, i, d])
    (LineOk PH PM) PH (quiet_reload_each h false _) (fun cs => quiet_trial h ev k cs) hH
    (fun cs i d _ _ _ hd => lineOk_access_hit PH PM k cs i d hd) _ hs3 ?_).2
  refine dump_lines h _ _ _ _ _ (fun i d _ => lineOk_raw_hit PH PM k i d) ?_
  rw [Evaluator.fill_log _ _ _ (quiet_reload h false _) (quiet_raw h k _)]
  exact h0

end MeasureLines

section Durations

theorem mem_durationsOf {c : Category} {k : HitMiss} {size d : Nat} {log : List String}
    (hd : d ∈ durationsOf c k size log) :
    ∃ line ∈ log, ∃ r, parseRecord line = some r ∧ r.key.category = c ∧ r.key.cls = k
      ∧ r.key.size = size ∧ r.duration = d := by
  simp only [durationsOf, List.mem_filterMap] at hd
  obtain ⟨line, hline, hm⟩ := hd
  refine ⟨line, hline, ?_⟩
  cases hr : parseRecord line with
  | none => rw [hr] at hm; exact Option.noConfusion hm
  | some r =>
    rw [hr] at hm
    by_cases hc : r.key.category = c ∧ r.key.cls = k ∧ r.key.size = size
    · simp only [hc, and_self, if_true, Option.some.injEq] at hm
      exact ⟨r, rfl, hc.1, hc.2.1, hc.2.2, hm⟩
    · simp only [hc, if_false] at hm
      exact Option.noConfusion hm

theorem length_durationsOf (c : Category) (k : HitMiss) (size : Nat) (log : List String) :
    (durationsOf c k size log).length = log.countP (isRecordOf c k size) := by
  induction log with
  | nil => rfl
  | cons line log ih =>
    cases hr : parseRecord line with
    | none =>
      have h1 : durationsOf c k size (line :: log) = durationsOf c k size log := by
        simp [durationsOf, List.filterMap_cons, hr]
      have h2 : isRecordOf c k size line = false := by
        simp [isRecordOf, recordKey, hr]
      rw [h1, List.countP_cons, h2, ih]
      simp
    | some r =>
      by_cases hc : r.key.category = c ∧ r.key.cls = k ∧ r.key.size = size
      · have h1 : durationsOf c k size (line :: log)
            = r.duration :: durationsOf c k size log := by
          simp [durationsOf, List.filterMap_cons, hr, hc]
        have h2 : isRecordOf c k size line = true := by
          simp [isRecordOf, recordKey, hr, hc]
        rw [h1, List.countP_cons, h2, List.length_cons, ih]
        simp
      · have h1 : durationsOf c k size (line :: log) = durationsOf c k size log := by
          simp [durationsOf, List.filterMap_cons, hr, hc]
        have h2 : isRecordOf c k size line = false := by
          simp [isRecordOf, recordKey, hr, hc]
        rw [h1, List.countP_cons, h2, ih]
        simp

theorem sum_eq_of_forall_eq (l : List Nat) (D : Nat) (hl : ∀ d ∈ l, d = D) :
    l.sum = l.length * D := by
  induction l with
  | nil => simp
  | cons a l ih =>
    rw [List.sum_cons, List.length_cons, hl a (List.mem_cons_self _ _),
      ih (fun d hd => hl d (List.mem_cons_of_mem _ hd)), Nat.succ_mul, Nat.add_comm]

theorem sum_ge_of_forall_gt (l : List Nat) (D : Nat) (hl : ∀ d ∈ l, D < d) :
    l.length * (D + 1) ≤ l.sum := by
  induction l with
  | nil => simp
  | cons a l ih =>
    have h1 := hl a (List.mem_cons_self _ _)
    have h2 := ih (fun d hd => hl d (List.mem_cons_of_mem _ hd))
    rw [List.sum_cons, List.length_cons, Nat.succ_mul]
    omega

theorem mean_lt_mean (l₁ l₂ : List Nat) (hlen : l₁.length = l₂.length)
    (hpos : 0 < l₁.length) (hsum : l₁.sum < l₂.sum) : mean l₁ < mean l₂ := by
  unfold mean
  rw [← hlen]
  have hq : (0 : ℚ) < (l₁.length : ℚ) := by exact_mod_cast hpos
  have hs : (l₁.sum : ℚ) < (l₂.sum : ℚ) := by exact_mod_cast hsum
  exact div_lt_div_of_pos_right hs hq

theorem simulated_backend : Host.simulated.SimulatedBackend := by
  refine ⟨⟨fun e c d hcd => ?_, fun e a c d he hc hd => ?_⟩, fun e c => ?_⟩
  · cases e <;> simp only [Host.simulated] <;>
      first
      | rfl
      | (rw [hcd _ rfl])
  · cases e <;> simp only [Event.address, Option.some.injEq] at he <;>
      first
      | (subst he; simp [Host.simulated, hc, hd])
      | exact Option.noConfusion he
  · cases e <;> simp only [Host.simulated] <;>
      first
      | (split <;> norm_num)
      | norm_num

end Durations

section Trials

variable {h : Host}

theorem trial_value (conf : settings) (k : Method) (cs : Nat) (hcs : cs ≤ 64) (m : Machine) :
    ((Evaluator.build conf).measure_duration h ((Evaluator.build conf).apply_op (k.op h) cs)
        m).1
      = runCost h (windowEvents h k cs) m.cache % 2 ^ 64 :=
  Evaluator.measure_duration_value h _ _ _
    (fun m => Evaluator.apply_op_replay h conf k cs hcs m) m

theorem hit_trial_cache (conf : settings) (F : Bool) (m : Machine) (j : Nat) (hj : j < 64) :
    (util.reload_each h F (Evaluator.build conf).ptr_arr m).cache (.arr j) = true :=
  util.reload_each_cache h F _ _ m (Or.inl (arr_mem_build conf j hj))

theorem miss_trial_cache (conf : settings) (F : Bool) (m : Machine) (j : Nat) (hj : j < 64) :
    (util.flush_each h F (Evaluator.build conf).ptr_arr m).cache (.arr j) = false :=
  util.flush_each_cache h F _ _ m (Or.inl (arr_mem_build conf j hj))

theorem hit_trial_value (hsim : h.SimulatedBackend) (conf : settings) (k : Method) (cs : Nat)
    (hcs : cs ≤ 64) (m : Machine) :
    ((Evaluator.build conf).measure_duration h ((Evaluator.build conf).apply_op (k.op h) cs)
        (util.reload_each h false (Evaluator.build conf).ptr_arr m)).1
      = runCost h (windowEvents h k cs) (fun _ => true) % 2 ^ 64 := by
  rw [trial_value conf k cs hcs,
    window_cost_hit hsim k cs _ (fun _ => true)
      (fun j hj => hit_trial_cache conf false m j (by omega)) (fun _ _ => rfl)]

theorem miss_trial_value (hsim : h.SimulatedBackend) (conf : settings) (k : Method) (cs : Nat)
    (h1 : 1 ≤ cs) (hcs : cs ≤ 64) (m : Machine) :
    runCost h (windowEvents h k cs) (fun _ => true) % 2 ^ 64
      < ((Evaluator.build conf).measure_duration h
          ((Evaluator.build conf).apply_op (k.op h) cs)
          (util.flush_each h false (Evaluator.build conf).ptr_arr m)).1 := by
  rw [trial_value conf k cs hcs]
  have hm := window_cost_miss hsim k cs (fun _ => true)
    (util.flush_each h false (Evaluator.build conf).ptr_arr m).cache (fun _ _ => rfl)
    (fun j hj => miss_trial_cache conf false m j (by omega))
  have hw := window_no_wrap hsim k cs hcs
    (util.flush_each h false (Evaluator.build conf).ptr_arr m).cache
  rw [Nat.mod_eq_of_lt hw]
  have := Nat.mod_le (runCost h (windowEvents h k cs) (fun _ => true)) (2 ^ 64)
  omega

theorem measure_log_counts (h : Host) (conf : settings) (k : Method) (st : Option Holders)
    (cache : Cache) (clock : Nat) (c : HitMiss) (s : Nat) (h1 : 1 ≤ s) (h2 : s ≤ conf.sets) :
    (durationsOf .access c s (appLog ((Evaluator.build conf).measure h (k.raw h) (k.op h)
        k.label false (Machine.init cache clock, st)).1.trace)).length = conf.count := by
  have hv := measure_view h (Evaluator.build conf) k (Machine.init cache clock, st)
  have hv' : (appLog ((Evaluator.build conf).measure h (k.raw h) (k.op h) k.label false
      (Machine.init cache clock, st)).1.trace).map lineView
      = (referenceMethod k.label conf.count conf.sets).map Key.view := by
    simpa [Machine.init, appLog, Evaluator.build] using hv
  rw [length_durationsOf, countP_of_view hv', countP_referenceMethod _ _ _ _ _ h1 h2]

theorem measure_durations (hsim : h.SimulatedBackend) (conf : settings) (hsets : conf.sets ≤ 64)
    (k : Method) (st : Option Holders) (hst : ∀ hs, st = some hs → hs.sized conf.count)
    (cache : Cache) (clock : Nat) (s : Nat) :
    (∀ d ∈ durationsOf .access .hit s (appLog ((Evaluator.build conf).measure h (k.raw h)
        (k.op h) k.label false (Machine.init cache clock, st)).1.trace),
      d = runCost h (windowEvents h k s) (fun _ => true) % 2 ^ 64)
    ∧ (∀ d ∈ durationsOf .access .miss s (appLog ((Evaluator.build conf).measure h (k.raw h)
        (k.op h) k.label false (Machine.init cache clock, st)).1.trace),
      runCost h (windowEvents h k s) (fun _ => true) % 2 ^ 64 < d) := by
  have hlines := (Evaluator.build conf).measure_lines h k
    (fun cs d => d = runCost h (windowEvents h k cs) (fun _ => true) % 2 ^ 64)
    (fun cs d => runCost h (windowEvents h k cs) (fun _ => true) % 2 ^ 64 < d)
    (fun cs m _ h2 => hit_trial_value hsim conf k cs (Nat.le_trans h2 hsets) m)
    (fun cs m h1 h2 => miss_trial_value hsim conf k cs h1 (Nat.le_trans h2 hsets) m)
    (Machine.init cache clock, st) hst (fun l hl => by simp [Machine.init, appLog] at hl)
  constructor
  · intro d hd
    obtain ⟨line, hline, r, hr, hc, hk, hs, hdur⟩ := mem_durationsOf hd
    obtain ⟨r', hr', hok⟩ := hlines line hline
    rw [hr] at hr'
    cases hr'
    have := (hok hc).1 hk
    rw [hs, hdur] at this
    exact this
  · intro d hd
    obtain ⟨line, hline, r, hr, hc, hk, hs, hdur⟩ := mem_durationsOf hd
    obtain ⟨r', hr', hok⟩ := hlines line hline
    rw [hr] at hr'
    cases hr'
    have := (hok hc).2 hk
    rw [hs, hdur] at this
    exact this

end Trials

section LaterClaims

theorem eq_replicate_of_forall_eq (l : List Nat) (D : Nat) (hl : ∀ d ∈ l, d = D) :
    l = List.replicate l.length D :=
  List.eq_replicate_iff.mpr ⟨rfl, hl⟩

theorem Evaluator.apply_op_congr (ev : Evaluator) (op op' : Address → Machine → Nat × Machine)
    (hop : ∀ a m, (op a m).2 = (op' a m).2) (cs : Nat) :
    ev.apply_op op cs = ev.apply_op op' cs := by
  funext m
  unfold Evaluator.apply_op forLoop
  exact foldl_congr_mem _ _ _ (fun m' j _ => hop _ m') m

theorem Evaluator.measure_congr (h : Host) (ev : Evaluator)
    (raw op op' : Address → Machine → Nat × Machine) (hop : ∀ a m, (op a m).2 = (op' a m).2)
    (method : String) (F : Bool) (s : Machine × Option Holders) :
    ev.measure h raw op method F s = ev.measure h raw op' method F s := by
  simp only [Evaluator.measure, ev.apply_op_congr op op' hop]

/-- C12, amended: under a simulated timing backend in which the time of an action is
determined by the action and the residency of its address, a miss takes strictly longer
than a hit, and every action takes less than `2 ^ 56` (so that no timed window wraps
around in the 64-bit `return_t`), for every method, every footprint size `s` in
`[1, sets]` and every count of at least 1, a call of `measure` records `count` durations
for (access, hit, s) and `count` durations for (access, miss, s), and the mean of the
miss durations is strictly greater than the mean of the hit durations. -/
theorem miss_mean_exceeds_hit_mean (h : Host) (hres : h.ResidencyTimed)
    (hfit : ∀ e c, h.cost e c < 2 ^ 56) (conf : settings)
    (ev : Evaluator) (hnew : Evaluator.new conf = .ok ev) (k : Method) (s : Nat)
    (hs1 : 1 ≤ s) (hs2 : s ≤ conf.sets) (hcount : 1 ≤ conf.count) (st : Option Holders)
    (hst : ∀ hs, st = some hs → hs.sized conf.count) (cache : Cache) (clock : Nat) :
    (durationsOf .access .hit s (appLog (ev.measure h (k.raw h) (k.op h) k.label false
        (Machine.init cache clock, st)).1.trace)).length = conf.count
    ∧ (durationsOf .access .miss s (appLog (ev.measure h (k.raw h) (k.op h) k.label false
        (Machine.init cache clock, st)).1.trace)).length = conf.count
    ∧ mean (durationsOf .access .hit s (appLog (ev.measure h (k.raw h) (k.op h) k.label false
        (Machine.init cache clock, st)).1.trace))
      < mean (durationsOf .access .miss s (appLog (ev.measure h (k.raw h) (k.op h) k.label
        false (Machine.init cache clock, st)).1.trace)) := by
  have hsim : h.SimulatedBackend := ⟨hres, hfit⟩
  obtain ⟨hev, hsets⟩ := build_of_new hnew
  subst hev
  have hlh := measure_log_counts h conf k st cache clock .hit s hs1 hs2
  have hlm := measure_log_counts h conf k st cache clock .miss s hs1 hs2
  obtain ⟨hhit, hmiss⟩ := measure_durations hsim conf hsets k st hst cache clock s
  refine ⟨hlh, hlm, mean_lt_mean _ _ (by rw [hlh, hlm]) (by rw [hlh]; exact hcount) ?_⟩
  have h1 := sum_eq_of_forall_eq _ _ hhit
  have h2 := sum_ge_of_forall_gt _ _ hmiss
  rw [hlh] at h1
  rw [hlm] at h2
  rw [h1]
  have h3 : conf.count * (runCost h (windowEvents h k s) (fun _ => true) % 2 ^ 64 + 1)
      = conf.count * (runCost h (windowEvents h k s) (fun _ => true) % 2 ^ 64) + conf.count :=
    Nat.mul_succ _ _
  omega

/-- The instance of C12 the specification names, flush_reload at size 1, on the
simulated host with count = 2 and sets = 1. -/
theorem miss_mean_exceeds_hit_mean_witness :
    (durationsOf .access .hit 1 (appLog ((Evaluator.build { count := 2, sets := 1 }).measure
        Host.simulated (Method.raw Host.simulated .flush_reload)
        (Method.op Host.simulated .flush_reload) Method.flush_reload.label false
        (Machine.init (fun _ => false) 0, none)).1.trace)).length = 2
    ∧ (durationsOf .access .miss 1 (appLog ((Evaluator.build { count := 2, sets := 1 }).measure
        Host.simulated (Method.raw Host.simulated .flush_reload)
        (Method.op Host.simulated .flush_reload) Method.flush_reload.label false
        (Machine.init (fun _ => false) 0, none)).1.trace)).length = 2
    ∧ mean (durationsOf .access .hit 1 (appLog
        ((Evaluator.build { count := 2, sets := 1 }).measure
        Host.simulated (Method.raw Host.simulated .flush_reload)
        (Method.op Host.simulated .flush_reload) Method.flush_reload.label false
        (Machine.init (fun _ => false) 0, none)).1.trace))
      < mean (durationsOf .access .miss 1 (appLog
        ((Evaluator.build { count := 2, sets := 1 }).measure
        Host.simulated (Method.raw Host.simulated .flush_reload)
        (Method.op Host.simulated .flush_reload) Method.flush_reload.label false
        (Machine.init (fun _ => false) 0, none)).1.trace)) :=
  miss_mean_exceeds_hit_mean Host.simulated simulated_backend.1 simulated_backend.2
    { count := 2, sets := 1 }
    (Evaluator.build { count := 2, sets := 1 }) rfl .flush_reload 1 (by decide) (by decide)
    (by decide) none (fun _ hs => Option.noConfusion hs) (fun _ => false) 0

end LaterClaims

section WindowClaim

theorem simulated_hit_window :
    runCost Host.simulated (windowEvents Host.simulated .flush_reload 1) (fun _ => true) % 2 ^ 64
      = 82 := by
  decide

theorem simulated_hit_durations :
    durationsOf .access .hit 1 (appLog ((Evaluator.build { count := 1, sets := 1 }).measure
        Host.simulated (raw.reload Host.simulated) (channel_access.flush_reload Host.simulated)
        "flush_reload" false (Machine.init (fun _ => false) 0, none)).1.trace) = [82] := by
  have hlen := measure_log_counts Host.simulated { count := 1, sets := 1 } .flush_reload none
    (fun _ => false) 0 .hit 1 (by decide) (by decide)
  have hall := (measure_durations simulated_backend { count := 1, sets := 1 } (by decide)
    .flush_reload none (fun _ hs => Option.noConfusion hs) (fun _ => false) 0 1).1
  have := eq_replicate_of_forall_eq _ _ hall
  rw [hlen, simulated_hit_window] at this
  exact this

theorem simulated_op_value (m : Machine) (hm : m.cache (.arr 0) = true) :
    (channel_access.flush_reload Host.simulated (.arr 0) m).1 = 40 := by
  simp [channel_access.flush_reload, Host.simulated, timeit, Machine.emit, Event.effect,
    return_t_mod, hm]

/-- C13: the duration stored in an access record of size `s` is the time elapsed in the
one window of `measure_duration` around the `s` calls `op(table[0])`, ...,
`op(table[s-1])`: the total time of each call's timing fences, timed action and cleanup
flush, taken from the cache state the preparation leaves (all 64 table cells resident
in the hit sweep, none in the miss sweep), as a `return_t`.  The values the channel
operation returns are discarded: two channel operations that act alike on the machine
give the same result of `measure`, whatever they return.  The stored duration is not
the sum of the returned durations: on the simulated host, for flush_reload with
count = 1 and sets = 1, the (access, hit, 1) record stores 82 where the one call of the
channel operation returns 40. -/
theorem access_duration_is_window (h : Host) (conf : settings) (ev : Evaluator)
    (hnew : Evaluator.new conf = .ok ev) (k : Method) (st : Option Holders)
    (hst : ∀ hs, st = some hs → hs.sized conf.count) (cache : Cache) (clock : Nat) :
    (∀ line ∈ appLog (ev.measure h (k.raw h) (k.op h) k.label false
          (Machine.init cache clock, st)).1.trace,
      ∀ r, parseRecord line = some r → r.key.category = .access →
        ∃ c : Cache, (∀ j, j < 64 → c (.arr j) = decide (r.key.cls = .hit))
          ∧ r.duration
              = runCost h ((List.range r.key.size).flatMap (fun j =>
                  [Event.tic (h.strategy k.tsc), k.first (.arr j),
                    Event.toc (h.strategy k.tsc)] ++ k.cleanup (.arr j))) c % 2 ^ 64)
    ∧ (∀ (raw op op' : Address → Machine → Nat × Machine) (method : String) (F : Bool)
        (s : Machine × Option Holders), (∀ a m, (op a m).2 = (op' a m).2) →
        ev.measure h raw op method F s = ev.measure h raw op' method F s)
    ∧ (durationsOf .access .hit 1 (appLog ((Evaluator.build { count := 1, sets := 1 }).measure
          Host.simulated (raw.reload Host.simulated)
          (channel_access.flush_reload Host.simulated) "flush_reload" false
          (Machine.init (fun _ => false) 0, none)).1.trace) = [82]
      ∧ ∀ m : Machine, m.cache (.arr 0) = true →
          (channel_access.flush_reload Host.simulated (.arr 0) m).1 = 40) := by
  obtain ⟨hev, hsets⟩ := build_of_new hnew
  subst hev
  refine ⟨fun line hline r hr hc => ?_,
    fun raw op op' method F s hop => Evaluator.measure_congr h _ raw op op' hop method F s,
    simulated_hit_durations, simulated_op_value⟩
  have hlines := (Evaluator.build conf).measure_lines h k
    (fun cs d => ∃ c : Cache, (∀ j, j < 64 → c (.arr j) = true)
      ∧ d = runCost h (windowEvents h k cs) c % 2 ^ 64)
    (fun cs d => ∃ c : Cache, (∀ j, j < 64 → c (.arr j) = false)
      ∧ d = runCost h (windowEvents h k cs) c % 2 ^ 64)
    (fun cs m _ h2 => ⟨_, fun j hj => hit_trial_cache conf false m j hj,
      trial_value conf k cs (Nat.le_trans h2 hsets) _⟩)
    (fun cs m _ h2 => ⟨_, fun j hj => miss_trial_cache conf false m j hj,
      trial_value conf k cs (Nat.le_trans h2 hsets) _⟩)
    (Machine.init cache clock, st) hst (fun l hl => by simp [Machine.init, appLog] at hl)
  obtain ⟨r', hr', hok⟩ := hlines line hline
  rw [hr] at hr'
  cases hr'
  cases hk : r.key.cls with
  | hit =>
    obtain ⟨c, hc1, hc2⟩ := (hok hc).1 hk
    exact ⟨c, fun j hj => by simpa using hc1 j hj, hc2⟩
  | miss =>
    obtain ⟨c, hc1, hc2⟩ := (hok hc).2 hk
    exact ⟨c, fun j hj => by simpa using hc1 j hj, hc2⟩

/-- The instance of C13 on the simulated host: the record stores 82, the channel
operation returns 40. -/
theorem access_duration_is_window_witness :
    durationsOf .access .hit 1 (appLog ((Evaluator.build { count := 1, sets := 1 }).measure
        Host.simulated (raw.reload Host.simulated)
        (channel_access.flush_reload Host.simulated) "flush_reload" false
        (Machine.init (fun _ => false) 0, none)).1.trace) = [82]
    ∧ (channel_access.flush_reload Host.simulated (.arr 0)
        (Machine.init (fun _ => true) 0)).1 = 40 :=
  ⟨(access_duration_is_window Host.simulated { count := 1, sets := 1 }
      (Evaluator.build { count := 1, sets := 1 }) rfl .flush_reload none
      (fun _ hs => Option.noConfusion hs) (fun _ => false) 0).2.2.1,
   (access_duration_is_window Host.simulated { count := 1, sets := 1 }
      (Evaluator.build { count := 1, sets := 1 }) rfl .flush_reload none
      (fun _ hs => Option.noConfusion hs) (fun _ => false) 0).2.2.2
      (Machine.init (fun _ => true) 0) rfl⟩

end WindowClaim

section WrapClaim

theorem wrapping_residency : Host.wrapping.ResidencyTimed := by
  refine ⟨fun e c d hcd => ?_, fun e a c d he hc hd => ?_⟩
  · cases e <;> simp only [Host.wrapping] <;>
      first
      | rfl
      | (rw [hcd _ rfl])
  · cases e <;> simp only [Event.address, Option.some.injEq] at he <;>
      first
      | (subst he; simp [Host.wrapping, hc, hd])
      | exact Option.noConfusion he

theorem wrapping_hit_window (c : Cache) (hc : c (.arr 0) = true) :
    runCost Host.wrapping (windowEvents Host.wrapping .flush_reload 1) c % 2 ^ 64 = 2 := by
  simp [windowEvents, runCost, Host.wrapping, Event.effect, Method.first, Method.cleanup, hc]

theorem wrapping_miss_window (c : Cache) (hc : c (.arr 0) = false) :
    runCost Host.wrapping (windowEvents Host.wrapping .flush_reload 1) c % 2 ^ 64 = 0 := by
  simp [windowEvents, runCost, Host.wrapping, Event.effect, Method.first, Method.cleanup, hc]

end WrapClaim

section WrapDurations

theorem wrapping_durations :
    (∀ d ∈ durationsOf .access .hit 1 (appLog
        ((Evaluator.build { count := 2, sets := 1 }).measure
        Host.wrapping (Method.raw Host.wrapping .flush_reload)
        (Method.op Host.wrapping .flush_reload) Method.flush_reload.label false
        (Machine.init (fun _ => false) 0, none)).1.trace), d = 2)
    ∧ (∀ d ∈ durationsOf .access .miss 1 (appLog
        ((Evaluator.build { count := 2, sets := 1 }).measure
        Host.wrapping (Method.raw Host.wrapping .flush_reload)
        (Method.op Host.wrapping .flush_reload) Method.flush_reload.label false
        (Machine.init (fun _ => false) 0, none)).1.trace), d = 0) := by
  have hlines := (Evaluator.build { count := 2, sets := 1 }).measure_lines Host.wrapping
    .flush_reload (fun cs d => cs = 1 → d = 2) (fun cs d => cs = 1 → d = 0)
    (fun cs m _ h2 hcs => by
      subst hcs
      rw [trial_value { count := 2, sets := 1 } .flush_reload 1 (by decide)]
      exact wrapping_hit_window _ (hit_trial_cache _ false m 0 (by decide)))
    (fun cs m _ h2 hcs => by
      subst hcs
      rw [trial_value { count := 2, sets := 1 } .flush_reload 1 (by decide)]
      exact wrapping_miss_window _ (miss_trial_cache _ false m 0 (by decide)))
    (Machine.init (fun _ => false) 0, none) (fun _ hs => Option.noConfusion hs)
    (fun l hl => by simp [Machine.init, appLog] at hl)
  constructor
  · intro d hd
    obtain ⟨line, hline, r, hr, hc, hk, hs, hdur⟩ := mem_durationsOf hd
    obtain ⟨r', hr', hok⟩ := hlines line hline
    rw [hr] at hr'
    cases hr'
    have := (hok hc).1 hk hs
    rw [hdur] at this
    exact this
  · intro d hd
    obtain ⟨line, hline, r, hr, hc, hk, hs, hdur⟩ := mem_durationsOf hd
    obtain ⟨r', hr', hok⟩ := hlines line hline
    rw [hr] at hr'
    cases hr'
    have := (hok hc).2 hk hs
    rw [hdur] at this
    exact this

theorem wrapping_hit_durations :
    durationsOf .access .hit 1 (appLog ((Evaluator.build { count := 2, sets := 1 }).measure
        Host.wrapping (Method.raw Host.wrapping .flush_reload)
        (Method.op Host.wrapping .flush_reload) Method.flush_reload.label false
        (Machine.init (fun _ => false) 0, none)).1.trace) = [2, 2] := by
  have hlen := measure_log_counts Host.wrapping { count := 2, sets := 1 } .flush_reload none
    (fun _ => false) 0 .hit 1 (by decide) (by decide)
  have := eq_replicate_of_forall_eq _ _ wrapping_durations.1
  rw [hlen] at this
  exact this

theorem wrapping_miss_durations :
    durationsOf .access .miss 1 (appLog ((Evaluator.build { count := 2, sets := 1 }).measure
        Host.wrapping (Method.raw Host.wrapping .flush_reload)
        (Method.op Host.wrapping .flush_reload) Method.flush_reload.label false
        (Machine.init (fun _ => false) 0, none)).1.trace) = [0, 0] := by
  have hlen := measure_log_counts Host.wrapping { count := 2, sets := 1 } .flush_reload none
    (fun _ => false) 0 .miss 1 (by decide) (by decide)
  have := eq_replicate_of_forall_eq _ _ wrapping_durations.2
  rw [hlen] at this
  exact this

/-- C12 as stated fails: the host `Host.wrapping` is a simulated timing backend in which
the time of an action is determined by the residency of its address and a miss takes
strictly longer than a hit (1 against `2 ^ 64 - 1`), yet for flush_reload at footprint
size 1 with count = 2 and sets = 1 `measure` records the durations 2, 2 for
(access, hit, 1) and 0, 0 for (access, miss, 1): the miss window takes `2 ^ 64` time
units, which is 0 as a `return_t`, so the mean of the miss durations is not greater than
the mean of the hit durations. -/
theorem miss_mean_wraps_below_hit_mean :
    Host.wrapping.ResidencyTimed
    ∧ Evaluator.new { count := 2, sets := 1 } = .ok (Evaluator.build { count := 2, sets := 1 })
    ∧ durationsOf .access .hit 1 (appLog ((Evaluator.build { count := 2, sets := 1 }).measure
        Host.wrapping (Method.raw Host.wrapping .flush_reload)
        (Method.op Host.wrapping .flush_reload) Method.flush_reload.label false
        (Machine.init (fun _ => false) 0, none)).1.trace) = [2, 2]
    ∧ durationsOf .access .miss 1 (appLog ((Evaluator.build { count := 2, sets := 1 }).measure
        Host.wrapping (Method.raw Host.wrapping .flush_reload)
        (Method.op Host.wrapping .flush_reload) Method.flush_reload.label false
        (Machine.init (fun _ => false) 0, none)).1.trace) = [0, 0]
    ∧ ¬ (mean (durationsOf .access .hit 1 (appLog
          ((Evaluator.build { count := 2, sets := 1 }).measure
          Host.wrapping (Method.raw Host.wrapping .flush_reload)
          (Method.op Host.wrapping .flush_reload) Method.flush_reload.label false
          (Machine.init (fun _ => false) 0, none)).1.trace))
        < mean (durationsOf .access .miss 1 (appLog
          ((Evaluator.build { count := 2, sets := 1 }).measure
          Host.wrapping (Method.raw Host.wrapping .flush_reload)
          (Method.op Host.wrapping .flush_reload) Method.flush_reload.label false
          (Machine.init (fun _ => false) 0, none)).1.trace))) := by
  refine ⟨wrapping_residency, rfl, wrapping_hit_durations, wrapping_miss_durations, ?_⟩
  rw [wrapping_hit_durations, wrapping_miss_durations]
  norm_num [mean]

end WrapDurations

end CacheHist
